import Mathlib

/-!
Verification development for the `smooth` Lie-theory library (pettni/lie).

This file shallowly embeds the parts of the C++ sources needed to settle the
frozen claims: the degenerate (flat) Lie-group trait instances from
`lie_group.hpp`, the derived right-plus/right-minus operators from
`lie_group_base.hpp`, the cumulative-spline evaluator from
`cumulative_spline.hpp`, the structured least-squares step `solve_ls` and the
Levenberg-Marquardt parameter search `lmpar` from `optim/lm.hpp` (together
with the `optimize` driver), and the two-pass spline reparameterization from
`spline/reparameterize.hpp`.

Modelling conventions:
* Eigen fixed-size vectors/matrices become `Fin n → _` / `Matrix (Fin m) (Fin n) _`.
* `double` arithmetic is modelled by exact arithmetic: `ℚ` where the code
  performs only field operations, `ℝ` where `std::sqrt` appears
  (`makeGivens`, `lmpar`, the reparameterization forward pass).
* Optional out-parameters become extra components of the returned value.
-/

namespace Smooth

/-! ## Flat Lie-group trait instances (`lie_group.hpp`, `lie<RnType>` / `lie<FloatingPointType>`)

Scalar type modelled by `ℚ` (these operations involve no rounding). -/

/-- Model of an Eigen fixed-size column vector `Eigen::Matrix<Scalar, n, 1>`. -/
abbrev Vec (n : ℕ) := Fin n → ℚ

/-- `lie<RnType>::Identity`, returns `G::Zero()`. -/
def rnIdentity (n : ℕ) : Vec n := 0

/-- `lie<RnType>::Ad`, returns `TangentMap::Identity()`. -/
def rnAd (n : ℕ) (_g : Vec n) : Matrix (Fin n) (Fin n) ℚ := 1

/-- `lie<RnType>::composition`, returns `g1 + g2`. -/
def rnComposition {n : ℕ} (g1 g2 : Vec n) : Vec n := g1 + g2

/-- `lie<RnType>::inverse`, returns `-g`. -/
def rnInverse {n : ℕ} (g : Vec n) : Vec n := -g

/-- `lie<RnType>::log`, returns `g`. -/
def rnLog {n : ℕ} (g : Vec n) : Vec n := g

/-- `lie<RnType>::ad`, returns `TangentMap::Zero()`. -/
def rnad (n : ℕ) (_a : Vec n) : Matrix (Fin n) (Fin n) ℚ := 0

/-- `lie<RnType>::exp`, returns `a`. -/
def rnExp {n : ℕ} (a : Vec n) : Vec n := a

/-- `lie<RnType>::dr_exp`, returns `TangentMap::Identity()`. -/
def rnDrExp (n : ℕ) (_a : Vec n) : Matrix (Fin n) (Fin n) ℚ := 1

/-- `lie<RnType>::dr_expinv`, returns `TangentMap::Identity()`. -/
def rnDrExpinv (n : ℕ) (_a : Vec n) : Matrix (Fin n) (Fin n) ℚ := 1

/-- `lie<FloatingPointType>::Identity`, returns `G(0)` (Dof = 1). -/
def flIdentity : ℚ := 0

/-- `lie<FloatingPointType>::Ad`, returns `TangentMap{1}` (the 1×1 identity). -/
def flAd (_g : ℚ) : Matrix (Fin 1) (Fin 1) ℚ := 1

/-- `lie<FloatingPointType>::composition`, returns `g1 + g2`. -/
def flComposition (g1 g2 : ℚ) : ℚ := g1 + g2

/-- `lie<FloatingPointType>::inverse`, returns `-g`. -/
def flInverse (g : ℚ) : ℚ := -g

/-- `lie<FloatingPointType>::log`, returns `Tangent{g}`. -/
def flLog (g : ℚ) : Vec 1 := fun _ => g

/-- `lie<FloatingPointType>::ad`, returns `TangentMap::Zero()`. -/
def flad (_a : Vec 1) : Matrix (Fin 1) (Fin 1) ℚ := 0

/-- `lie<FloatingPointType>::exp`, returns `a(0)`. -/
def flExp (a : Vec 1) : ℚ := a 0

/-- `lie<FloatingPointType>::dr_exp`, returns `TangentMap::Identity()`. -/
def flDrExp (_a : Vec 1) : Matrix (Fin 1) (Fin 1) ℚ := 1

/-- `lie<FloatingPointType>::dr_expinv`, returns `TangentMap::Identity()`. -/
def flDrExpinv (_a : Vec 1) : Matrix (Fin 1) (Fin 1) ℚ := 1

/-! ## Derived operators from `lie_group_base.hpp`

`LieGroupBase` derives `operator+` (right-plus) and `operator-` (right-minus)
from the group primitives of the derived class.  We model the derived class
abstractly: a multiplicative group `G` together with maps `e : V → G`
(`Derived::exp`) and `l : G → V` (`.log()`). -/

/-- `LieGroupBase::operator+`: `g + a := g * Derived::exp(a)`. -/
def basePlus {G V : Type} [Group G] (e : V → G) (g : G) (a : V) : G := g * e a

/-- `LieGroupBase::operator-`: `g1 - g2 := (g2.inverse() * g1).log()`. -/
def baseMinus {G V : Type} [Group G] (l : G → V) (g1 g2 : G) : V := l (g2⁻¹ * g1)

/-- `traits::man<RnType>::rplus`: `g + a`. -/
def rnRplus {n : ℕ} (g a : Vec n) : Vec n := g + a

/-- `traits::man<RnType>::rminus`: `m1 - m2`. -/
def rnRminus {n : ℕ} (g1 g2 : Vec n) : Vec n := g1 - g2

/-- C6: for the degenerate (flat) Lie-group trait instances — Eigen column
vectors (`lie<RnType>`) and built-in floating-point scalars
(`lie<FloatingPointType>`) — `ad` is the zero matrix, `Ad` is the identity
matrix, `exp` is the identity map, and `dr_exp`, `dr_expinv` are the identity
matrix, for all arguments. -/
theorem flat_lie_degenerate :
    (∀ (n : ℕ) (a : Vec n), rnad n a = 0) ∧
    (∀ (n : ℕ) (g : Vec n), rnAd n g = 1) ∧
    (∀ (n : ℕ) (a : Vec n), rnExp a = a) ∧
    (∀ (n : ℕ) (a : Vec n), rnDrExp n a = 1 ∧ rnDrExpinv n a = 1) ∧
    (∀ a : Vec 1, flad a = 0) ∧
    (∀ g : ℚ, flAd g = 1) ∧
    (∀ x : ℚ, flExp (fun _ => x) = x) ∧
    (∀ a : Vec 1, flDrExp a = 1 ∧ flDrExpinv a = 1) :=
  ⟨fun _ _ => rfl, fun _ _ => rfl, fun _ _ => rfl, fun _ _ => ⟨rfl, rfl⟩,
   fun _ => rfl, fun _ => rfl, fun _ => rfl, fun _ => ⟨rfl, rfl⟩⟩

/-- C5: the right-plus/right-minus round trip.  For the derived operators of
`LieGroupBase`, `(g + a) - g` equals `log (exp a)` for every group, hence
equals `a` exactly (in particular `isApprox a`) whenever `log ∘ exp = id`,
which holds for every group implementation present in the sources (the flat
`Rn`/scalar instances, whose round trip is the third conjunct). -/
theorem rplus_rminus_roundtrip :
    (∀ {G V : Type} [Group G] (e : V → G) (l : G → V) (g : G) (a : V),
        baseMinus l (basePlus e g a) g = l (e a)) ∧
    (∀ {G V : Type} [Group G] (e : V → G) (l : G → V),
        (∀ v, l (e v) = v) →
          ∀ (g : G) (a : V), baseMinus l (basePlus e g a) g = a) ∧
    (∀ (n : ℕ) (g a : Vec n), rnRminus (rnRplus g a) g = a) := by
  refine ⟨?_, ?_, ?_⟩
  · intro G V _ e l g a
    simp [baseMinus, basePlus, inv_mul_cancel_left]
  · intro G V _ e l hl g a
    simp [baseMinus, basePlus, inv_mul_cancel_left, hl]
  · intro n g a
    simp [rnRminus, rnRplus]

/-- Witness for C5 at a concrete input: the flat scalar group modelled as
`Multiplicative ℚ` with `exp = ofAdd`, `log = toAdd`, `g = ofAdd 2`, `a = 5`. -/
theorem rplus_rminus_roundtrip_witness :
    baseMinus (V := ℚ) Multiplicative.toAdd
        (basePlus Multiplicative.ofAdd (Multiplicative.ofAdd 2) 5)
        (Multiplicative.ofAdd 2) = 5 :=
  rplus_rminus_roundtrip.2.1 Multiplicative.ofAdd Multiplicative.toAdd
    (fun _ => rfl) (Multiplicative.ofAdd 2) 5

/-! ## Cumulative spline evaluation (`cumulative_spline.hpp`)

`cspline_eval_diff` evaluates `g = ∏_{i=1}^{K} exp(B̃_i(u)·v_i)` where
`B̃_i(u) = uvec · Bcum.col(i)`; `cspline_eval` converts `K+1` control points
into `K` right-minus differences and left-composes the first control point.
The group is modelled abstractly: a multiplicative group `G` with
`e : V → G` (`exp`) and `l : G → V` (`log`) over a `ℚ`-module tangent space
(the claim is about exact arithmetic).  Only the value computation is
embedded; the optional `vel`/`acc`/`der` outputs do not feed back into it. -/

/-- Modelled from the spec: `monomial_derivatives` (polynomial basis header is
not among the sources); row 0 is "the monomial vector of u", `uvec_i = u^i`. -/
def monomialVec (K : ℕ) (u : ℚ) : Fin (K + 1) → ℚ := fun i => u ^ (i : ℕ)

/-- Cumulative basis weight `Btilde = uvec.dot(Bcum.col(j))`. -/
def btilde (K : ℕ) (Bcum : Matrix (Fin (K + 1)) (Fin (K + 1)) ℚ) (u : ℚ)
    (j : Fin (K + 1)) : ℚ :=
  ∑ i, monomialVec K u i * Bcum i j

/-- `cspline_eval_diff` value computation: starting from `Identity`, compose
`exp(Btilde_j(u) * v_j)` for `j = 1, …, K` left to right. -/
def csplineEvalDiff {G V : Type} [Group G] [AddCommGroup V] [Module ℚ V]
    (e : V → G) (K : ℕ) (v : Fin K → V)
    (Bcum : Matrix (Fin (K + 1)) (Fin (K + 1)) ℚ) (u : ℚ) : G :=
  (List.finRange K).foldl
    (fun g i => g * e (btilde K Bcum u i.succ • v i)) 1

/-- `rminus` for a Lie group: `rminus(g1, g2) = log(g2⁻¹ * g1)`
(cf. `LieGroupBase::operator-`). -/
def rminusLie {G V : Type} [Group G] (l : G → V) (g1 g2 : G) : V :=
  l (g2⁻¹ * g1)

/-- `cspline_eval`: differences `v_i = rminus(g_i, g_{i-1})`, then
`composition(gs[0], cspline_eval_diff(diff_pts, Bcum, u))`. -/
def csplineEval {G V : Type} [Group G] [AddCommGroup V] [Module ℚ V]
    (e : V → G) (l : G → V) (K : ℕ) (gs : Fin (K + 1) → G)
    (Bcum : Matrix (Fin (K + 1)) (Fin (K + 1)) ℚ) (u : ℚ) : G :=
  gs 0 * csplineEvalDiff e K
    (fun i => rminusLie l (gs i.succ) (gs i.castSucc)) Bcum u

/-- Modelled from the spec: the cumulative coefficient matrix of the degree-2
B-spline basis, one of the bases used operationally (`fit_bspline` calls
`polynomial_cumulative_basis<PolynomialBasis::Bspline, K>()`; the basis-change
tables themselves are outside the sources).  Columns hold the monomial
coefficients of the cumulative functions `B̃_0 = 1`, `B̃_1 = (1 + 2u - u²)/2`,
`B̃_2 = u²/2`. -/
def bsplineCum2 : Matrix (Fin 3) (Fin 3) ℚ :=
  !![1, 1/2, 0; 0, 1, 0; 0, -1/2, 1/2]

/-- Generic fold-to-product conversion for the spline accumulator. -/
theorem foldl_mul_eq_prod {G : Type} [Monoid G] {α : Type} (t : α → G) :
    ∀ (l : List α) (g : G), l.foldl (fun h i => h * t i) g = g * (l.map t).prod := by
  intro l
  induction l with
  | nil => simp
  | cons x xs ih => intro g; simp [ih, mul_assoc]

/-- Telescoping product of consecutive right-minus differences. -/
theorem teleProd_eq {G : Type} [Group G] :
    ∀ (K : ℕ) (f : Fin (K + 1) → G),
      ((List.finRange K).map (fun i => (f i.castSucc)⁻¹ * f i.succ)).prod
        = (f 0)⁻¹ * f (Fin.last K) := by
  intro K
  induction K with
  | zero => intro f; simp
  | succ K ih =>
    intro f
    rw [List.finRange_succ_eq_map, List.map_cons, List.map_map, List.prod_cons]
    have h1 : ((List.finRange K).map
        ((fun i : Fin (K + 1) => (f i.castSucc)⁻¹ * f i.succ) ∘ Fin.succ)).prod
        = ((List.finRange K).map
            (fun i : Fin K => ((fun j : Fin (K + 1) => f j.succ) i.castSucc)⁻¹
              * (fun j : Fin (K + 1) => f j.succ) i.succ)).prod := by
      rfl
    rw [h1, ih (fun j => f j.succ)]
    simp [Fin.succ_last, mul_assoc]

/-- C2 counterexample: for the cumulative degree-2 B-spline basis (a supported
basis) and control points `g = (0, 1, 0)` in the flat scalar group
(`Multiplicative ℚ`), `cspline_eval` at `u = 0` gives `1/2 ≠ g_0` and at
`u = 1` gives `1/2 ≠ g_K`: the endpoint-interpolation equality fails for this
supported basis even in exact arithmetic. -/
theorem cspline_bspline_no_interp :
    csplineEval (V := ℚ) Multiplicative.ofAdd Multiplicative.toAdd 2
        (fun i => Multiplicative.ofAdd (![0, 1, 0] i)) bsplineCum2 0
        ≠ Multiplicative.ofAdd (![0, 1, 0] 0) ∧
    csplineEval (V := ℚ) Multiplicative.ofAdd Multiplicative.toAdd 2
        (fun i => Multiplicative.ofAdd (![0, 1, 0] i)) bsplineCum2 1
        ≠ Multiplicative.ofAdd (![0, 1, 0] 2) := by
  have k0 : Multiplicative.toAdd (csplineEval (V := ℚ) Multiplicative.ofAdd
      Multiplicative.toAdd 2 (fun i => Multiplicative.ofAdd (![0, 1, 0] i))
      bsplineCum2 0) = 1/2 := by
    simp [csplineEval, csplineEvalDiff, show List.finRange 2 = [0, 1] by decide,
      btilde, monomialVec, bsplineCum2, rminusLie, Fin.sum_univ_three, smul_eq_mul]
  have k1 : Multiplicative.toAdd (csplineEval (V := ℚ) Multiplicative.ofAdd
      Multiplicative.toAdd 2 (fun i => Multiplicative.ofAdd (![0, 1, 0] i))
      bsplineCum2 1) = 1/2 := by
    simp [csplineEval, csplineEvalDiff, show List.finRange 2 = [0, 1] by decide,
      btilde, monomialVec, bsplineCum2, rminusLie, Fin.sum_univ_three, smul_eq_mul]
    norm_num
  constructor
  · intro h
    rw [h] at k0
    simp at k0
  · intro h
    rw [h] at k1
    simp at k1

/-- C2 (amended): `cspline_eval` reproduces the first control point at `u = 0`
and the last at `u = 1` exactly, for every basis whose cumulative coefficient
matrix satisfies `B̃_j(0) = 0` and `B̃_j(1) = 1` for `j = 1, …, K` (as the
cumulative Bernstein basis does), for every group with `exp 0 = 1` and
`exp ∘ log = id`; it does not hold for every supported basis (the cumulative
B-spline basis violates it, see the counterexample). -/
theorem cspline_endpoint_interp {G V : Type} [Group G] [AddCommGroup V]
    [Module ℚ V] (e : V → G) (l : G → V)
    (he0 : e 0 = 1) (hel : ∀ g, e (l g) = g)
    (K : ℕ) (gs : Fin (K + 1) → G)
    (Bcum : Matrix (Fin (K + 1)) (Fin (K + 1)) ℚ)
    (h0 : ∀ j : Fin K, btilde K Bcum 0 j.succ = 0)
    (h1 : ∀ j : Fin K, btilde K Bcum 1 j.succ = 1) :
    csplineEval e l K gs Bcum 0 = gs 0 ∧
    csplineEval e l K gs Bcum 1 = gs (Fin.last K) := by
  constructor
  · unfold csplineEval csplineEvalDiff
    rw [foldl_mul_eq_prod]
    have hz : ∀ i ∈ List.finRange K,
        e (btilde K Bcum 0 i.succ •
          rminusLie l (gs i.succ) (gs i.castSucc)) = 1 := by
      intro i _
      rw [h0 i, zero_smul, he0]
    rw [List.map_congr_left hz]
    simp
  · unfold csplineEval csplineEvalDiff
    rw [foldl_mul_eq_prod]
    have hz : ∀ i ∈ List.finRange K,
        e (btilde K Bcum 1 i.succ •
          rminusLie l (gs i.succ) (gs i.castSucc))
          = (gs i.castSucc)⁻¹ * gs i.succ := by
      intro i _
      rw [h1 i, one_smul, rminusLie, hel]
    rw [List.map_congr_left hz, teleProd_eq K gs]
    simp

/-- Witness for C2's amended theorem: degree-1 cumulative Bernstein basis
(the identity matrix: `B̃_0 = 1`, `B̃_1 = u`), flat scalar group, control
points `(3, 5)`. -/
theorem cspline_endpoint_interp_witness :
    csplineEval (V := ℚ) Multiplicative.ofAdd Multiplicative.toAdd 1
        (fun i => Multiplicative.ofAdd (![3, 5] i)) 1 0
      = Multiplicative.ofAdd (![3, 5] 0) ∧
    csplineEval (V := ℚ) Multiplicative.ofAdd Multiplicative.toAdd 1
        (fun i => Multiplicative.ofAdd (![3, 5] i)) 1 1
      = Multiplicative.ofAdd (![3, 5] (Fin.last 1)) :=
  cspline_endpoint_interp Multiplicative.ofAdd Multiplicative.toAdd ofAdd_zero
    (fun g => ofAdd_toAdd g) 1 (fun i => Multiplicative.ofAdd (![3, 5] i)) 1
    (by intro j; fin_cases j; simp [btilde, monomialVec, Fin.sum_univ_two, Matrix.one_apply])
    (by intro j; fin_cases j; simp [btilde, monomialVec, Fin.sum_univ_two, Matrix.one_apply])

/-! ## Structured least squares (`optim/lm.hpp`, `solve_ls`)

`solve_ls` receives a column-pivoted QR factorization `J P = Q R` of a square
`J`, a scaling vector `d` and a right-hand side `r`; it eliminates the
permuted diagonal block `P' diag(d) P` into the triangular factor with Givens
rotations, soft-truncates rank-deficient trailing rows, back-substitutes and
returns `-(P z)` (optionally writing the upper-triangular factor `Rt`).
Scalars are `ℝ` since `makeGivens` takes square roots. -/

/-- `Eigen::NumTraits<double>::dummy_precision()`. -/
noncomputable def dummyPrecision : ℝ := 1e-12

/-- `Eigen::JacobiRotation::makeGivens` for real scalars: returns `(c, s)`. -/
noncomputable def makeGivens (p q : ℝ) : ℝ × ℝ :=
  if q = 0 then
    (if p < 0 then -1 else 1, 0)
  else if p = 0 then
    (0, if q < 0 then 1 else -1)
  else if |q| < |p| then
    let t := q / p
    let u := if p < 0 then -Real.sqrt (1 + t ^ 2) else Real.sqrt (1 + t ^ 2)
    (1 / u, -t * (1 / u))
  else
    let t := p / q
    let u := if q < 0 then -Real.sqrt (1 + t ^ 2) else Real.sqrt (1 + t ^ 2)
    let s := -(1 / u)
    (-t * s, s)

/-- Closed form of `makeGivens` away from `(0, 0)`:
`c = p/√(p²+q²)`, `s = -q/√(p²+q²)`. -/
theorem makeGivens_eq (p q : ℝ) (h : ¬(p = 0 ∧ q = 0)) :
    makeGivens p q
      = (p / Real.sqrt (p ^ 2 + q ^ 2), -q / Real.sqrt (p ^ 2 + q ^ 2)) := by
  have hsum : (0 : ℝ) < p ^ 2 + q ^ 2 := by
    rcases not_and_or.mp h with hp | hq
    · nlinarith [sq_pos_of_ne_zero hp, sq_nonneg q]
    · nlinarith [sq_pos_of_ne_zero hq, sq_nonneg p]
  have hs : 0 < Real.sqrt (p ^ 2 + q ^ 2) := Real.sqrt_pos.mpr hsum
  have hsne : Real.sqrt (p ^ 2 + q ^ 2) ≠ 0 := ne_of_gt hs
  set h2 := Real.sqrt (p ^ 2 + q ^ 2) with hh2
  unfold makeGivens
  by_cases hq : q = 0
  · have hp : p ≠ 0 := fun hp => h ⟨hp, hq⟩
    have habs : h2 = |p| := by rw [hh2, hq]; simp [Real.sqrt_sq_eq_abs]
    rw [if_pos hq, hq, habs]
    rcases lt_or_gt_of_ne hp with hneg | hpos
    · rw [if_pos hneg, abs_of_neg hneg]
      refine Prod.ext ?_ ?_ <;> field_simp
    · rw [if_neg (not_lt.mpr hpos.le), abs_of_pos hpos]
      refine Prod.ext ?_ ?_ <;> field_simp
  · by_cases hp : p = 0
    · have habs : h2 = |q| := by rw [hh2, hp]; simp [Real.sqrt_sq_eq_abs]
      rw [if_neg hq, if_pos hp, hp, habs]
      rcases lt_or_gt_of_ne hq with hneg | hpos
      · rw [if_pos hneg, abs_of_neg hneg]
        refine Prod.ext ?_ ?_ <;> field_simp
      · rw [if_neg (not_lt.mpr hpos.le), abs_of_pos hpos]
        refine Prod.ext ?_ ?_ <;> field_simp
    · by_cases hlt : |q| < |p|
      · rw [if_neg hq, if_neg hp, if_pos hlt]
        have hdiv : Real.sqrt (1 + (q / p) ^ 2) = h2 / |p| := by
          have he : 1 + (q / p) ^ 2 = (p ^ 2 + q ^ 2) / p ^ 2 := by field_simp
          rw [he, Real.sqrt_div (by positivity), Real.sqrt_sq_eq_abs, hh2]
        have hu : (if p < 0 then -Real.sqrt (1 + (q / p) ^ 2)
            else Real.sqrt (1 + (q / p) ^ 2)) = h2 / p := by
          rcases lt_or_gt_of_ne hp with hneg | hpos
          · rw [if_pos hneg, hdiv, abs_of_neg hneg, div_neg, neg_neg]
          · rw [if_neg (not_lt.mpr hpos.le), hdiv, abs_of_pos hpos]
        dsimp only
        rw [hu, one_div_div]
        refine Prod.ext ?_ ?_
        · rfl
        · show -(q / p) * (p / h2) = -q / h2
          field_simp
          ring
      · rw [if_neg hq, if_neg hp, if_neg hlt]
        have hdiv : Real.sqrt (1 + (p / q) ^ 2) = h2 / |q| := by
          have he : 1 + (p / q) ^ 2 = (p ^ 2 + q ^ 2) / q ^ 2 := by field_simp; ring
          rw [he, Real.sqrt_div (by positivity), Real.sqrt_sq_eq_abs, hh2]
        have hu : (if q < 0 then -Real.sqrt (1 + (p / q) ^ 2)
            else Real.sqrt (1 + (p / q) ^ 2)) = h2 / q := by
          rcases lt_or_gt_of_ne hq with hneg | hpos
          · rw [if_pos hneg, hdiv, abs_of_neg hneg, div_neg, neg_neg]
          · rw [if_neg (not_lt.mpr hpos.le), hdiv, abs_of_pos hpos]
        dsimp only
        rw [hu, one_div_div]
        refine Prod.ext ?_ ?_
        · show -(p / q) * -(q / h2) = p / h2
          field_simp
        · show -(q / h2) = -q / h2
          rw [neg_div]

/-- Working state of the `solve_ls` Givens elimination: the stacked system
`[A; B] x + [a; b]` with `A = R`, `B = P' diag(d) P`, `a = Q' r`, `b = 0`. -/
@[ext]
structure ElimState (n : ℕ) where
  A : Matrix (Fin n) (Fin n) ℝ
  B : Matrix (Fin n) (Fin n) ℝ
  a : Fin n → ℝ
  b : Fin n → ℝ

/-- One Givens elimination step of `solve_ls`: eliminate `B(row, col)` against
`A(col, col)`, updating row `col` of `A` (entries from the diagonal on), row
`row` of `B` (entries right of `col`), and the right-hand sides. -/
noncomputable def processRow {n : ℕ} (col row : Fin n) (st : ElimState n) :
    ElimState n :=
  let c := (makeGivens (st.A col col) (st.B row col)).1
  let s := (makeGivens (st.A col col) (st.B row col)).2
  { A := fun p q =>
      if p = col ∧ q = col then c * st.A col col - s * st.B row col
      else if p = col ∧ col < q then c * st.A col q - s * st.B row q
      else st.A p q
    B := fun p q =>
      if p = row ∧ col < q then s * st.A col q + c * st.B row q
      else st.B p q
    a := fun p => if p = col then c * st.a col - s * st.b row else st.a p
    b := fun p => if p = row then s * st.a col + c * st.b row else st.b p }

/-- The inner loop of `solve_ls` runs over rows `0, …, col`. -/
def rowList (n : ℕ) (col : Fin n) : List (Fin n) :=
  (List.finRange n).filter (fun r => r ≤ col)

/-- Process one column of the `solve_ls` elimination. -/
noncomputable def processCol {n : ℕ} (col : Fin n) (st : ElimState n) :
    ElimState n :=
  (rowList n col).foldl (fun s row => processRow col row s) st

/-- The full `solve_ls` Givens elimination (outer loop over the columns). -/
noncomputable def givensStage {n : ℕ} (st : ElimState n) : ElimState n :=
  (List.finRange n).foldl (fun s col => processCol col s) st

/-- The rank scan of `solve_ls`: count leading diagonal entries of the
eliminated triangular factor that are `≥ dummy_precision`, stopping at the
first failure. -/
noncomputable def rankFrom {n : ℕ} (A : Matrix (Fin n) (Fin n) ℝ) (i : ℕ) :
    ℕ :=
  if h : i < n then
    if dummyPrecision ≤ A ⟨i, h⟩ ⟨i, h⟩ then rankFrom A (i + 1) else i
  else i
  termination_by n - i

/-- Backward substitution on the leading `r × r` upper-triangular block
(`triangularView<Upper>().solve`), entries past `r` set to zero
(`sol.tail(N - rank).setZero()`). -/
noncomputable def bsEntry {n : ℕ} (A : Matrix (Fin n) (Fin n) ℝ)
    (aV : Fin n → ℝ) (r : ℕ) (i : ℕ) : ℝ :=
  if hi : i < n ∧ i < r then
    (aV ⟨i, hi.1⟩ - ∑ j : Fin n,
        if hj : i < (j : ℕ) ∧ (j : ℕ) < r then
          A ⟨i, hi.1⟩ j * bsEntry A aV r (j : ℕ)
        else 0)
      / A ⟨i, hi.1⟩ ⟨i, hi.1⟩
  else 0
  termination_by n - i
  decreasing_by
    have := j.2
    omega

theorem rankFrom_ge {n : ℕ} (A : Matrix (Fin n) (Fin n) ℝ) :
    ∀ k, k ≤ rankFrom A k := by
  intro k
  induction k using rankFrom.induct A with
  | case1 k hk hle ih => rw [rankFrom, dif_pos hk, if_pos hle]; omega
  | case2 k hk hle => rw [rankFrom, dif_pos hk, if_neg hle]
  | case3 k hk => rw [rankFrom, dif_neg hk]

theorem rankFrom_le_max {n : ℕ} (A : Matrix (Fin n) (Fin n) ℝ) :
    ∀ k, rankFrom A k ≤ max k n := by
  intro k
  induction k using rankFrom.induct A with
  | case1 k hk hle ih => rw [rankFrom, dif_pos hk, if_pos hle]; omega
  | case2 k hk hle => rw [rankFrom, dif_pos hk, if_neg hle]; omega
  | case3 k hk => rw [rankFrom, dif_neg hk]; omega

theorem rankFrom_diag {n : ℕ} (A : Matrix (Fin n) (Fin n) ℝ) :
    ∀ k m (hm : m < n), k ≤ m → m < rankFrom A k →
      dummyPrecision ≤ A ⟨m, hm⟩ ⟨m, hm⟩ := by
  intro k
  induction k using rankFrom.induct A with
  | case1 k hk hle ih =>
    intro m hm hkm hlt
    rw [rankFrom, dif_pos hk, if_pos hle] at hlt
    rcases eq_or_lt_of_le hkm with rfl | h
    · exact hle
    · exact ih m hm h hlt
  | case2 k hk hle =>
    intro m hm hkm hlt
    rw [rankFrom, dif_pos hk, if_neg hle] at hlt
    omega
  | case3 k hk =>
    intro m hm hkm hlt
    rw [rankFrom, dif_neg hk] at hlt
    omega

theorem rankFrom_le_of_bad {n : ℕ} (A : Matrix (Fin n) (Fin n) ℝ) :
    ∀ k m (hm : m < n), k ≤ m → A ⟨m, hm⟩ ⟨m, hm⟩ < dummyPrecision →
      rankFrom A k ≤ m := by
  intro k
  induction k using rankFrom.induct A with
  | case1 k hk hle ih =>
    intro m hm hkm hbad
    rw [rankFrom, dif_pos hk, if_pos hle]
    rcases eq_or_lt_of_le hkm with rfl | h
    · exact absurd hle (not_le.mpr hbad)
    · exact ih m hm h hbad
  | case2 k hk hle =>
    intro m hm hkm _
    rw [rankFrom, dif_pos hk, if_neg hle]
    exact hkm
  | case3 k hk =>
    intro m hm hkm _
    rw [rankFrom, dif_neg hk]
    exact hkm

theorem rankFrom_stop {n : ℕ} (A : Matrix (Fin n) (Fin n) ℝ) :
    ∀ k, ∀ hlt : rankFrom A k < n,
      A ⟨rankFrom A k, hlt⟩ ⟨rankFrom A k, hlt⟩ < dummyPrecision := by
  intro k
  induction k using rankFrom.induct A with
  | case1 k hk hle ih =>
    intro hlt
    have he : rankFrom A k = rankFrom A (k + 1) := by
      rw [rankFrom, dif_pos hk, if_pos hle]
    simp only [he] at hlt ⊢
    exact ih hlt
  | case2 k hk hle =>
    have he : rankFrom A k = k := by rw [rankFrom, dif_pos hk, if_neg hle]
    intro hlt
    simp only [he] at hlt ⊢
    exact not_le.mp hle
  | case3 k hk =>
    have he : rankFrom A k = k := by rw [rankFrom, dif_neg hk]
    intro hlt
    simp only [he] at hlt
    omega

theorem rankFrom_eq_n {n : ℕ} (A : Matrix (Fin n) (Fin n) ℝ)
    (hA : ∀ i : Fin n, dummyPrecision ≤ A i i) :
    ∀ k, k ≤ n → rankFrom A k = n := by
  intro k
  induction k using rankFrom.induct A with
  | case1 k hk hle ih =>
    intro _
    rw [rankFrom, dif_pos hk, if_pos hle]
    exact ih (by omega)
  | case2 k hk hle => exact fun _ => absurd (hA ⟨k, hk⟩) hle
  | case3 k hk => intro hkn; rw [rankFrom, dif_neg hk]; omega

theorem bsEntry_zero {n : ℕ} (A : Matrix (Fin n) (Fin n) ℝ) (aV : Fin n → ℝ)
    (r i : ℕ) (h : r ≤ i ∨ n ≤ i) : bsEntry A aV r i = 0 := by
  rw [bsEntry, dif_neg]
  omega

theorem bsEntry_solve {n : ℕ} (A : Matrix (Fin n) (Fin n) ℝ) (aV : Fin n → ℝ)
    (r : ℕ) (i : Fin n) (hir : (i : ℕ) < r) (hd : A i i ≠ 0) :
    (∑ j : Fin n, if (i : ℕ) ≤ (j : ℕ) ∧ (j : ℕ) < r
        then A i j * bsEntry A aV r (j : ℕ) else 0) = aV i := by
  classical
  have hzi : bsEntry A aV r (i : ℕ)
      = (aV i - ∑ j : Fin n, if (i : ℕ) < (j : ℕ) ∧ (j : ℕ) < r
          then A i j * bsEntry A aV r (j : ℕ) else 0) / A i i := by
    rw [bsEntry, dif_pos (show (i : ℕ) < n ∧ (i : ℕ) < r from ⟨i.2, hir⟩)]
    simp only [Fin.eta, dite_eq_ite]
  have herase : (∑ j ∈ Finset.univ.erase i,
      if (i : ℕ) ≤ (j : ℕ) ∧ (j : ℕ) < r then A i j * bsEntry A aV r (j : ℕ) else 0)
      = ∑ j : Fin n, if (i : ℕ) < (j : ℕ) ∧ (j : ℕ) < r
          then A i j * bsEntry A aV r (j : ℕ) else 0 := by
    have hcong : (∑ j ∈ Finset.univ.erase i,
        if (i : ℕ) ≤ (j : ℕ) ∧ (j : ℕ) < r then A i j * bsEntry A aV r (j : ℕ) else 0)
        = ∑ j ∈ Finset.univ.erase i,
            if (i : ℕ) < (j : ℕ) ∧ (j : ℕ) < r then A i j * bsEntry A aV r (j : ℕ) else 0 := by
      apply Finset.sum_congr rfl
      intro j hj
      have hji : (j : ℕ) ≠ (i : ℕ) :=
        fun hc => Finset.ne_of_mem_erase hj (Fin.ext hc)
      by_cases hcond : (i : ℕ) < (j : ℕ) ∧ (j : ℕ) < r
      · rw [if_pos ⟨le_of_lt hcond.1, hcond.2⟩, if_pos hcond]
      · rw [if_neg (fun hc => hcond ⟨lt_of_le_of_ne hc.1 (Ne.symm hji), hc.2⟩),
          if_neg hcond]
    rw [hcong]
    exact Finset.sum_erase _ (by rw [if_neg (fun hc => absurd hc.1 (lt_irrefl _))])
  rw [← Finset.add_sum_erase _ _ (Finset.mem_univ i), herase,
    if_pos ⟨le_refl (i : ℕ), hir⟩, hzi]
  field_simp

/-- The triangular-solve stage of `solve_ls` applied to the eliminated factor. -/
noncomputable def solveLsTri {n : ℕ} (A : Matrix (Fin n) (Fin n) ℝ)
    (aV : Fin n → ℝ) : Fin n → ℝ :=
  fun i => bsEntry A aV (rankFrom A 0) (i : ℕ)

/-- Permutation matrix of `σ` (column `j` holds a one in row `σ j`), modelling
`J_qr.colsPermutation()`. -/
def permMatrix {n : ℕ} (σ : Equiv.Perm (Fin n)) :
    Matrix (Fin n) (Fin n) ℝ :=
  fun i j => if i = σ j then 1 else 0

/-- `solve_ls` (square case): inputs are the pieces of the column-pivoted QR
factorization `J P = Q R` (`matrixQ`, `matrixR`, `colsPermutation`), the
scaling vector `d`, the right-hand side `r`, and the caller's `Rt` matrix;
returns the solution `-(P z)` and the written-back `Rt`. -/
noncomputable def solveLs {n : ℕ} (Q R : Matrix (Fin n) (Fin n) ℝ)
    (σ : Equiv.Perm (Fin n)) (d rv : Fin n → ℝ)
    (RtIn : Matrix (Fin n) (Fin n) ℝ) :
    (Fin n → ℝ) × Matrix (Fin n) (Fin n) ℝ :=
  let st0 : ElimState n :=
    { A := R
      B := Matrix.diagonal (fun i => d (σ i))
      a := fun i => ∑ j, Q j i * rv j
      b := 0 }
  let stF := givensStage st0
  let RtOut : Matrix (Fin n) (Fin n) ℝ :=
    fun i j => if i ≤ j then stF.A i j else RtIn i j
  let z := solveLsTri stF.A stF.a
  (fun i => -(z (σ.symm i)), RtOut)

/-- C10: when the optional `Rt` output is supplied to `solve_ls`, only the
upper-triangular part (diagonal included) is assigned
(`Rt.triangularView<Upper>() = …`); every strictly-lower-triangular entry of
the caller's matrix keeps the value it held before the call. -/
theorem solveLs_lower_Rt_frame {n : ℕ} (Q R : Matrix (Fin n) (Fin n) ℝ)
    (σ : Equiv.Perm (Fin n)) (d rv : Fin n → ℝ)
    (RtIn : Matrix (Fin n) (Fin n) ℝ) (i j : Fin n) (h : j < i) :
    (solveLs Q R σ d rv RtIn).2 i j = RtIn i j := by
  show (if i ≤ j then _ else RtIn i j) = RtIn i j
  rw [if_neg (not_le.mpr h)]

/-- Witness for C10 at a concrete input (`n = 2`, the entry `(1,0)` of the
caller's `Rt` holds `7` and is untouched). -/
theorem solveLs_lower_Rt_frame_witness :
    (solveLs (n := 2) 1 1 1 ![0, 0] ![1, 1] !![0, 0; 7, 0]).2 1 0
      = !![(0 : ℝ), 0; 7, 0] 1 0 :=
  solveLs_lower_Rt_frame 1 1 1 ![0, 0] ![1, 1] !![0, 0; 7, 0] 1 0 (by decide)

/-- C3: the soft rank-truncation of `solve_ls`.  If after the Givens
elimination the triangular factor `A` has a diagonal entry below machine
precision, the call does not fail: `rank` stops exactly at the first such
column, the solution components (in permuted order) from that column onward
are zero, and the leading components solve the leading `rank × rank`
upper-triangular subsystem, so `solve_ls` always returns a well-defined
vector (`solveLsTri` is the stage of `solveLs` that produces `z`;
the returned vector is `-(P z)`). -/
theorem solveLs_rank_deficient_soft {n : ℕ} (A : Matrix (Fin n) (Fin n) ℝ)
    (aV : Fin n → ℝ) (hbad : ∃ i : Fin n, A i i < dummyPrecision) :
    rankFrom A 0 < n ∧
    (∀ hlt : rankFrom A 0 < n,
        A ⟨rankFrom A 0, hlt⟩ ⟨rankFrom A 0, hlt⟩ < dummyPrecision ∧
        ∀ m (hm : m < n), m < rankFrom A 0 →
          dummyPrecision ≤ A ⟨m, hm⟩ ⟨m, hm⟩) ∧
    (∀ i : Fin n, rankFrom A 0 ≤ (i : ℕ) → solveLsTri A aV i = 0) ∧
    (∀ i : Fin n, (i : ℕ) < rankFrom A 0 →
        (∑ j : Fin n, if (i : ℕ) ≤ (j : ℕ) ∧ (j : ℕ) < rankFrom A 0
            then A i j * solveLsTri A aV j else 0) = aV i) := by
  obtain ⟨i0, hi0⟩ := hbad
  have hi0' : A ⟨(i0 : ℕ), i0.2⟩ ⟨(i0 : ℕ), i0.2⟩ < dummyPrecision := by
    simpa [Fin.eta] using hi0
  have hrlt : rankFrom A 0 < n :=
    lt_of_le_of_lt (rankFrom_le_of_bad A 0 (i0 : ℕ) i0.2 (Nat.zero_le _) hi0')
      i0.2
  refine ⟨hrlt, ?_, ?_, ?_⟩
  · intro hlt
    exact ⟨rankFrom_stop A 0 hlt,
      fun m hm hmr => rankFrom_diag A 0 m hm (Nat.zero_le _) hmr⟩
  · intro i hi
    exact bsEntry_zero A aV _ _ (Or.inl hi)
  · intro i hi
    have hdiag : dummyPrecision ≤ A i i := by
      have := rankFrom_diag A 0 (i : ℕ) i.2 (Nat.zero_le _) hi
      simpa [Fin.eta] using this
    have hne : A i i ≠ 0 := by
      have : (0 : ℝ) < dummyPrecision := by norm_num [dummyPrecision]
      exact ne_of_gt (lt_of_lt_of_le this hdiag)
    exact bsEntry_solve A aV _ i hi hne

/-- Witness for C3 at a concrete input: `n = 2`, eliminated factor
`A = [[1, 2], [0, 0]]` whose second diagonal entry is below machine
precision, right-hand side `(3, 5)`. -/
theorem solveLs_rank_deficient_soft_witness :
    ((!![(1 : ℝ), 2; 0, 0]) 1 1 < dummyPrecision) ∧
    (rankFrom !![(1 : ℝ), 2; 0, 0] 0 < 2 ∧
      (∀ hlt : rankFrom !![(1 : ℝ), 2; 0, 0] 0 < 2,
          (!![(1 : ℝ), 2; 0, 0]) ⟨rankFrom !![(1 : ℝ), 2; 0, 0] 0, hlt⟩
              ⟨rankFrom !![(1 : ℝ), 2; 0, 0] 0, hlt⟩ < dummyPrecision ∧
          ∀ m (hm : m < 2), m < rankFrom !![(1 : ℝ), 2; 0, 0] 0 →
            dummyPrecision ≤ (!![(1 : ℝ), 2; 0, 0]) ⟨m, hm⟩ ⟨m, hm⟩) ∧
      (∀ i : Fin 2, rankFrom !![(1 : ℝ), 2; 0, 0] 0 ≤ (i : ℕ) →
          solveLsTri !![(1 : ℝ), 2; 0, 0] ![3, 5] i = 0) ∧
      (∀ i : Fin 2, (i : ℕ) < rankFrom !![(1 : ℝ), 2; 0, 0] 0 →
          (∑ j : Fin 2, if (i : ℕ) ≤ (j : ℕ) ∧
              (j : ℕ) < rankFrom !![(1 : ℝ), 2; 0, 0] 0
              then (!![(1 : ℝ), 2; 0, 0]) i j *
                solveLsTri !![(1 : ℝ), 2; 0, 0] ![3, 5] j else 0) = ![(3 : ℝ), 5] i)) :=
  ⟨by norm_num [dummyPrecision],
    solveLs_rank_deficient_soft !![(1 : ℝ), 2; 0, 0] ![3, 5]
      ⟨1, by norm_num [dummyPrecision]⟩⟩

/-! ### `solve_ls` with zero scaling vector

With `d = 0` the `B` block is zero and every Givens rotation degenerates to a
sign flip of the processed row, so the elimination leaves a row-wise
sign-scaled copy of `R` and of `Q'r`. -/

/-- The sign factor `makeGivens` produces when its second argument is zero. -/
noncomputable def sgnD (x : ℝ) : ℝ := if x < 0 then -1 else 1

/-- Effect of one degenerate Givens step: scale row `col` of `A` (from the
diagonal on) and entry `col` of `a`. -/
noncomputable def rowScale {n : ℕ} (col : Fin n) (c : ℝ) (st : ElimState n) :
    ElimState n :=
  { A := fun p q => if p = col ∧ col ≤ q then c * st.A p q else st.A p q
    B := st.B
    a := fun p => if p = col then c * st.a p else st.a p
    b := st.b }

/-- The `B`/`b` blocks of the stacked system are zero. -/
def ZB {n : ℕ} (st : ElimState n) : Prop := st.B = 0 ∧ st.b = 0

theorem makeGivens_q_zero (p : ℝ) :
    makeGivens p 0 = (if p < 0 then -1 else 1, 0) := by
  unfold makeGivens
  rw [if_pos rfl]

theorem sgnD_mul_self_nonneg (x : ℝ) : 0 ≤ sgnD x * x := by
  unfold sgnD
  by_cases h : x < 0
  · rw [if_pos h]; nlinarith
  · rw [if_neg h]; nlinarith [not_lt.mp h]

theorem sgnD_ne_zero (x : ℝ) : sgnD x ≠ 0 := by
  unfold sgnD
  by_cases h : x < 0 <;> simp [h]

theorem rowScale_ZB {n : ℕ} (col : Fin n) (c : ℝ) (st : ElimState n)
    (hZ : ZB st) : ZB (rowScale col c st) := hZ

theorem processRow_zeroB {n : ℕ} (col row : Fin n) (st : ElimState n)
    (hZ : ZB st) :
    processRow col row st = rowScale col (sgnD (st.A col col)) st := by
  obtain ⟨hB, hb⟩ := hZ
  have hB0 : ∀ p q, st.B p q = 0 := fun p q => by rw [hB]; rfl
  have hb0 : ∀ p, st.b p = 0 := fun p => by rw [hb]; rfl
  have hmk : makeGivens (st.A col col) (st.B row col)
      = (sgnD (st.A col col), 0) := by
    rw [hB0, makeGivens_q_zero]
    rfl
  unfold processRow
  rw [hmk]
  refine ElimState.ext ?_ ?_ ?_ ?_
  · funext p q
    show (if p = col ∧ q = col then sgnD (st.A col col) * st.A col col - 0 * st.B row col
        else if p = col ∧ col < q then sgnD (st.A col col) * st.A col q - 0 * st.B row q
        else st.A p q)
      = if p = col ∧ col ≤ q then sgnD (st.A col col) * st.A p q else st.A p q
    by_cases hp : p = col
    · subst hp
      rcases lt_trichotomy p q with hlt | heq | hgt
      · rw [if_neg (fun hc => absurd hc.2 (ne_of_gt hlt)), if_pos ⟨rfl, hlt⟩,
          if_pos ⟨rfl, le_of_lt hlt⟩]
        ring
      · subst heq
        rw [if_pos ⟨rfl, rfl⟩, if_pos ⟨rfl, le_refl p⟩]
        ring
      · rw [if_neg (fun hc => absurd hc.2 (ne_of_lt hgt)),
          if_neg (fun hc => absurd hc.2 (not_lt.mpr (le_of_lt hgt))),
          if_neg (fun hc => absurd hc.2 (not_le.mpr hgt))]
    · rw [if_neg (fun hc => hp hc.1), if_neg (fun hc => hp hc.1),
        if_neg (fun hc => hp hc.1)]
  · funext p q
    show (if p = row ∧ col < q then 0 * st.A col q + sgnD (st.A col col) * st.B row q
        else st.B p q) = st.B p q
    by_cases hc : p = row ∧ col < q
    · rw [if_pos hc, hB0, hB0]
      ring
    · rw [if_neg hc]
  · funext p
    show (if p = col then sgnD (st.A col col) * st.a col - 0 * st.b row else st.a p)
      = if p = col then sgnD (st.A col col) * st.a p else st.a p
    by_cases hp : p = col
    · subst hp
      rw [if_pos rfl, if_pos rfl]
      ring
    · rw [if_neg hp, if_neg hp]
  · funext p
    show (if p = row then 0 * st.a col + sgnD (st.A col col) * st.b row else st.b p)
      = st.b p
    by_cases hp : p = row
    · subst hp
      rw [if_pos rfl, hb0]
      ring
    · rw [if_neg hp]

theorem processRow_id {n : ℕ} (col row : Fin n) (st : ElimState n)
    (hZ : ZB st) (hpos : 0 ≤ st.A col col) : processRow col row st = st := by
  rw [processRow_zeroB col row st hZ]
  have hs : sgnD (st.A col col) = 1 := by
    unfold sgnD
    rw [if_neg (not_lt.mpr hpos)]
  rw [hs]
  refine ElimState.ext ?_ rfl ?_ rfl
  · funext p q
    show (if p = col ∧ col ≤ q then 1 * st.A p q else st.A p q) = st.A p q
    rw [one_mul, ite_self]
  · funext p
    show (if p = col then 1 * st.a p else st.a p) = st.a p
    rw [one_mul, ite_self]

theorem foldl_fixed_of {α β : Type} (f : α → β → α) (s : α) :
    ∀ l : List β, (∀ x ∈ l, f s x = s) → l.foldl f s = s := by
  intro l
  induction l with
  | nil => intro _; rfl
  | cons x xs ih =>
    intro h
    simp only [List.foldl_cons, h x (by simp)]
    exact ih fun y hy => h y (by simp [hy])

theorem processCol_zeroB {n : ℕ} (col : Fin n) (st : ElimState n)
    (hZ : ZB st) :
    processCol col st = rowScale col (sgnD (st.A col col)) st := by
  unfold processCol
  have hmem : col ∈ rowList n col := by
    simp [rowList, List.mem_filter]
  obtain ⟨r0, rest, hlist⟩ : ∃ r0 rest, rowList n col = r0 :: rest := by
    cases h : rowList n col with
    | nil => rw [h] at hmem; simp at hmem
    | cons a l => exact ⟨a, l, rfl⟩
  rw [hlist]
  simp only [List.foldl_cons]
  rw [processRow_zeroB col r0 st hZ]
  have hZ1 : ZB (rowScale col (sgnD (st.A col col)) st) :=
    rowScale_ZB col _ st hZ
  have hpos : 0 ≤ (rowScale col (sgnD (st.A col col)) st).A col col := by
    show 0 ≤ if col = col ∧ col ≤ col then sgnD (st.A col col) * st.A col col
        else st.A col col
    rw [if_pos ⟨rfl, le_refl col⟩]
    exact sgnD_mul_self_nonneg _
  exact foldl_fixed_of _ _ rest fun r _ => processRow_id col r _ hZ1 hpos

theorem foldl_processCol_zeroB {n : ℕ} :
    ∀ (l : List (Fin n)) (st : ElimState n), ZB st → l.Nodup →
      l.foldl (fun s c => processCol c s) st =
        { A := fun p q => if p ∈ l ∧ p ≤ q then sgnD (st.A p p) * st.A p q
              else st.A p q
          B := st.B
          a := fun p => if p ∈ l then sgnD (st.A p p) * st.a p else st.a p
          b := st.b } := by
  intro l
  induction l with
  | nil =>
    intro st _ _
    refine ElimState.ext ?_ rfl ?_ rfl
    · funext p q
      simp
    · funext p
      simp
  | cons c l' ih =>
    intro st hZ hnd
    simp only [List.foldl_cons]
    rw [processCol_zeroB c st hZ]
    rw [ih (rowScale c (sgnD (st.A c c)) st) (rowScale_ZB c _ st hZ)
      (List.nodup_cons.mp hnd).2]
    have hcnot : c ∉ l' := (List.nodup_cons.mp hnd).1
    have hA1 : ∀ p q, (rowScale c (sgnD (st.A c c)) st).A p q
        = if p = c ∧ c ≤ q then sgnD (st.A c c) * st.A p q else st.A p q :=
      fun p q => rfl
    have ha1 : ∀ p, (rowScale c (sgnD (st.A c c)) st).a p
        = if p = c then sgnD (st.A c c) * st.a p else st.a p :=
      fun p => rfl
    refine ElimState.ext ?_ rfl ?_ rfl
    · funext p q
      simp only [hA1]
      by_cases hp : p = c
      · subst hp
        by_cases hq : p ≤ q
        · simp [hcnot, hq, List.mem_cons]
        · simp [hq]
      · by_cases hin : p ∈ l' <;> by_cases hq : p ≤ q <;>
          simp [hA1, hp, hin, hq, List.mem_cons]
    · funext p
      simp only [ha1, hA1]
      by_cases hp : p = c
      · subst hp
        simp [hcnot, List.mem_cons]
      · by_cases hin : p ∈ l' <;> simp [hp, hin, List.mem_cons]

/-- With a zero `B` block, the whole Givens stage is a row-wise sign scaling
of the upper part of `A` and of `a`. -/
theorem givensStage_zeroB {n : ℕ} (st : ElimState n) (hZ : ZB st) :
    givensStage st =
      { A := fun p q => if p ≤ q then sgnD (st.A p p) * st.A p q else st.A p q
        B := st.B
        a := fun p => sgnD (st.A p p) * st.a p
        b := st.b } := by
  unfold givensStage
  rw [foldl_processCol_zeroB (List.finRange n) st hZ (List.nodup_finRange n)]
  refine ElimState.ext ?_ rfl ?_ rfl
  · funext p q
    simp [List.mem_finRange]
  · funext p
    simp [List.mem_finRange]

theorem sgnD_mul_self (x : ℝ) : sgnD x * x = |x| := by
  unfold sgnD
  by_cases h : x < 0
  · rw [if_pos h, abs_of_neg h]
    ring
  · rw [if_neg h, abs_of_nonneg (not_lt.mp h)]
    ring

/-- An upper-triangular homogeneous system with nonzero diagonal has only the
zero solution. -/
theorem upperTri_mulVec_zero {n : ℕ} (R : Matrix (Fin n) (Fin n) ℝ)
    (hlow : ∀ i j : Fin n, j < i → R i j = 0)
    (hdiag : ∀ i : Fin n, R i i ≠ 0) (w : Fin n → ℝ)
    (h : R.mulVec w = 0) : w = 0 := by
  have step : ∀ i : Fin n, (∀ j : Fin n, (i : ℕ) < (j : ℕ) → w j = 0) →
      w i = 0 := by
    intro i hup
    have hrow : ∑ j, R i j * w j = 0 := by
      have hc := congrFun h i
      rwa [Matrix.mulVec, Matrix.dotProduct] at hc
    have hsingle : ∑ j, R i j * w j = R i i * w i := by
      apply Finset.sum_eq_single i
      · intro j _ hji
        rcases lt_or_gt_of_ne (fun hc => hji (Fin.ext hc) :
            (j : ℕ) ≠ (i : ℕ)) with hlt | hgt
        · rw [hlow i j (Fin.lt_def.mpr hlt), zero_mul]
        · rw [hup j hgt, mul_zero]
      · intro hh
        exact absurd (Finset.mem_univ i) hh
    rw [hsingle] at hrow
    exact (mul_eq_zero.mp hrow).resolve_left (hdiag i)
  have key : ∀ m : ℕ, ∀ i : Fin n, n ≤ (i : ℕ) + m + 1 → w i = 0 := by
    intro m
    induction m with
    | zero =>
      intro i hi
      exact step i fun j hj => absurd j.2 (by omega)
    | succ m ih =>
      intro i hi
      exact step i fun j hj => ih j (by omega)
  funext i
  simp only [Pi.zero_apply]
  exact key n i (by omega)

/-- C4: with zero scaling vector `d` and a well-conditioned square factor
(`QᵀQ = 1`, `J P = Q R`, `R` upper triangular with diagonal entries at least
machine precision), `solve_ls` reproduces the ordinary least-squares solution
of `J x = -r` exactly — in particular within `1e-8` of it componentwise.  The
statement is for any square size; the claim's `N = M = 3` is the instance in
the witness. -/
theorem solveLs_zero_d_ols {n : ℕ} (J Q R : Matrix (Fin n) (Fin n) ℝ)
    (σ : Equiv.Perm (Fin n)) (rv : Fin n → ℝ)
    (RtIn : Matrix (Fin n) (Fin n) ℝ)
    (hQ : Q.transpose * Q = 1) (hJQR : J * permMatrix σ = Q * R)
    (hRlow : ∀ i j : Fin n, j < i → R i j = 0)
    (hRdiag : ∀ i : Fin n, dummyPrecision ≤ |R i i|) :
    J.mulVec ((solveLs Q R σ 0 rv RtIn).1) = -rv ∧
    ∀ y : Fin n → ℝ, J.mulVec y = -rv →
      ∀ i : Fin n, |(solveLs Q R σ 0 rv RtIn).1 i - y i| ≤ 1e-8 := by
  classical
  have heps : (0 : ℝ) < dummyPrecision := by norm_num [dummyPrecision]
  set a0 : Fin n → ℝ := fun i => ∑ j, Q j i * rv j with ha0
  set st0 : ElimState n :=
    { A := R
      B := Matrix.diagonal (fun i => (0 : Fin n → ℝ) (σ i))
      a := a0
      b := 0 } with hst0
  have hZ : ZB st0 := by
    constructor
    · show Matrix.diagonal (fun i => (0 : Fin n → ℝ) (σ i)) = 0
      simp
    · rfl
  have hstage := givensStage_zeroB st0 hZ
  set AF : Matrix (Fin n) (Fin n) ℝ :=
    fun p q => if p ≤ q then sgnD (R p p) * R p q else R p q with hAF
  set aF : Fin n → ℝ := fun p => sgnD (R p p) * a0 p with haF
  have hstA : (givensStage st0).A = AF := by rw [hstage]
  have hsta : (givensStage st0).a = aF := by rw [hstage]
  have hAFdiag : ∀ i : Fin n, AF i i = |R i i| := by
    intro i
    show (if i ≤ i then sgnD (R i i) * R i i else R i i) = |R i i|
    rw [if_pos (le_refl i), sgnD_mul_self]
  have hAFeps : ∀ i : Fin n, dummyPrecision ≤ AF i i := fun i => by
    rw [hAFdiag i]
    exact hRdiag i
  have hrank : rankFrom AF 0 = n := rankFrom_eq_n AF hAFeps 0 (Nat.zero_le n)
  set z : Fin n → ℝ := solveLsTri AF aF with hz
  have heqs : ∀ i : Fin n, ∑ j, R i j * z j = a0 i := by
    intro i
    have hir : (i : ℕ) < rankFrom AF 0 := by
      rw [hrank]
      exact i.2
    have hdne : AF i i ≠ 0 := ne_of_gt (lt_of_lt_of_le heps (hAFeps i))
    have hmain := bsEntry_solve AF aF (rankFrom AF 0) i hir hdne
    have h1 : (∑ j : Fin n, if (i : ℕ) ≤ (j : ℕ) ∧ (j : ℕ) < rankFrom AF 0
        then AF i j * bsEntry AF aF (rankFrom AF 0) (j : ℕ) else 0)
        = ∑ j : Fin n, sgnD (R i i) * (R i j * z j) := by
      apply Finset.sum_congr rfl
      intro j _
      by_cases hij : (i : ℕ) ≤ (j : ℕ)
      · rw [if_pos ⟨hij, by rw [hrank]; exact j.2⟩]
        have hAFij : AF i j = sgnD (R i i) * R i j := by
          show (if i ≤ j then sgnD (R i i) * R i j else R i j)
            = sgnD (R i i) * R i j
          rw [if_pos (show i ≤ j from hij)]
        rw [hAFij]
        show sgnD (R i i) * R i j * z j = sgnD (R i i) * (R i j * z j)
        ring
      · rw [if_neg (fun hc => hij hc.1)]
        have hji : j < i := Fin.lt_def.mpr (by omega)
        rw [hRlow i j hji]
        ring
    have h2 : sgnD (R i i) * (∑ j, R i j * z j) = sgnD (R i i) * a0 i := by
      rw [Finset.mul_sum, ← h1, hmain]
    exact mul_left_cancel₀ (sgnD_ne_zero _) h2
  have hRz : R.mulVec z = a0 := by
    funext i
    show ∑ j, R i j * z j = a0 i
    exact heqs i
  have hPv : ∀ v : Fin n → ℝ,
      (permMatrix σ).mulVec v = fun i => v (σ.symm i) := by
    intro v
    funext i
    rw [Matrix.mulVec, Matrix.dotProduct]
    have hc : ∀ j : Fin n, permMatrix σ i j * v j
        = if j = σ.symm i then v j else 0 := by
      intro j
      show (if i = σ j then (1 : ℝ) else 0) * v j = _
      by_cases hj : j = σ.symm i
      · rw [if_pos hj, if_pos (by rw [hj, Equiv.apply_symm_apply]), one_mul]
      · rw [if_neg hj, if_neg (fun hc => hj (by rw [hc, Equiv.symm_apply_apply])),
          zero_mul]
    rw [Finset.sum_congr rfl fun j _ => hc j]
    simp
  have hxdef : (solveLs Q R σ 0 rv RtIn).1 = fun i => -(z (σ.symm i)) := by
    show (fun i => -(solveLsTri (givensStage st0).A (givensStage st0).a (σ.symm i)))
      = fun i => -(z (σ.symm i))
    rw [hstA, hsta]
  have hQQt : Q * Q.transpose = 1 := Matrix.mul_eq_one_comm.mp hQ
  have ha0Q : a0 = Q.transpose.mulVec rv := by
    funext i
    rw [Matrix.mulVec, Matrix.dotProduct]
    rfl
  have hJx : J.mulVec ((solveLs Q R σ 0 rv RtIn).1) = -rv := by
    rw [hxdef]
    have hneg : (fun i => -(z (σ.symm i))) = -((permMatrix σ).mulVec z) := by
      rw [hPv z]
      rfl
    rw [hneg, Matrix.mulVec_neg, Matrix.mulVec_mulVec, hJQR,
      ← Matrix.mulVec_mulVec, hRz, ha0Q, Matrix.mulVec_mulVec, hQQt,
      Matrix.one_mulVec]
  refine ⟨hJx, ?_⟩
  intro y hy i
  have hinj : ∀ v : Fin n → ℝ, J.mulVec v = 0 → v = 0 := by
    intro v hv
    set w : Fin n → ℝ := fun j => v (σ j) with hw
    have hPmw : (permMatrix σ).mulVec w = v := by
      rw [hPv w]
      funext i'
      show v (σ (σ.symm i')) = v i'
      rw [Equiv.apply_symm_apply]
    have hQRw : Q.mulVec (R.mulVec w) = 0 := by
      rw [Matrix.mulVec_mulVec, ← hJQR, ← Matrix.mulVec_mulVec, hPmw, hv]
    have hRw : R.mulVec w = 0 := by
      have h1 : Q.transpose.mulVec (Q.mulVec (R.mulVec w)) = 0 := by
        rw [hQRw, Matrix.mulVec_zero]
      rwa [Matrix.mulVec_mulVec, hQ, Matrix.one_mulVec] at h1
    have hw0 : w = 0 :=
      upperTri_mulVec_zero R hRlow
        (fun i' => abs_pos.mp (lt_of_lt_of_le heps (hRdiag i')))
        w hRw
    funext i'
    have : v (σ (σ.symm i')) = 0 := by
      have := congrFun hw0 (σ.symm i')
      simpa [hw] using this
    rwa [Equiv.apply_symm_apply] at this
  have hsub : (solveLs Q R σ 0 rv RtIn).1 - y = 0 := by
    apply hinj
    rw [Matrix.mulVec_sub, hJx, hy, sub_self]
  have hxi : (solveLs Q R σ 0 rv RtIn).1 i = y i := by
    have hc := congrFun hsub i
    simpa [sub_eq_zero] using hc
  rw [hxi, sub_self, abs_zero]
  norm_num

/-- Witness for C4 at a concrete input: `n = 3`, `J = Q = R = I`, identity
pivoting, `r = (1, 2, 3)`. -/
theorem solveLs_zero_d_ols_witness :
    (1 : Matrix (Fin 3) (Fin 3) ℝ).mulVec
        ((solveLs (n := 3) 1 1 1 0 ![1, 2, 3] 0).1) = -![1, 2, 3] ∧
    ∀ y : Fin 3 → ℝ,
      (1 : Matrix (Fin 3) (Fin 3) ℝ).mulVec y = -![1, 2, 3] →
        ∀ i : Fin 3,
          |(solveLs (n := 3) 1 1 1 0 ![1, 2, 3] 0).1 i - y i| ≤ 1e-8 :=
  solveLs_zero_d_ols 1 1 1 1 ![1, 2, 3] 0
    (by simp)
    (by
      have hperm : permMatrix (1 : Equiv.Perm (Fin 3)) = 1 := by
        funext i j
        simp [permMatrix, Matrix.one_apply, eq_comm]
      rw [hperm])
    (fun i j h => Matrix.one_apply_ne (ne_of_gt h))
    (fun i => by norm_num [dummyPrecision, Matrix.one_apply])

/-! ## `lmpar` (`optim/lm.hpp`), scalar instance `N = M = 1`

`lmpar` QR-factorizes `J`, returns `λ = 0` with the undamped solution when
`φ(0) ≤ 0.1·Δ`, and otherwise runs at most 20 safeguarded Newton iterations.
For a 1×1 matrix Eigen's `ColPivHouseholderQR` is exact: `Q = [1]`,
`R = [J]`, trivial pivoting; `solve` returns `-r/J` (or `0` when the rank is
zero, i.e. `J = 0`). -/

/-- `ColPivHouseholderQR<1,1>::solve`: rank-0 gives the zero vector,
otherwise `rv / J`. -/
noncomputable def qrSolve1 (j rv : ℝ) : ℝ := if j = 0 then 0 else rv / j

/-- `ColPivHouseholderQR<1,1>::rank()`: `1` iff `J ≠ 0`. -/
noncomputable def qrRank1 (j : ℝ) : ℕ := if j = 0 then 0 else 1

/-- `solve_ls<1,1>` on the QR pieces `Q = [1]`, `R = [j]`, trivial
permutation: returns the solution entry and the written `Rt` entry. -/
noncomputable def solveLs1 (j dv rv rt : ℝ) : ℝ × ℝ :=
  let out := solveLs (n := 1) 1 (fun _ _ => j) 1 (fun _ => dv) (fun _ => rv)
    (fun _ _ => rt)
  (out.1 0, out.2 0 0)

theorem givensStage_one (st : ElimState 1) :
    givensStage st = processRow 0 0 st := by
  unfold givensStage
  rw [show List.finRange 1 = [0] from by decide]
  simp only [List.foldl_cons, List.foldl_nil]
  unfold processCol
  rw [show rowList 1 0 = [0] from by decide]
  simp only [List.foldl_cons, List.foldl_nil]

theorem processRow_A {n : ℕ} (col row : Fin n) (st : ElimState n) :
    (processRow col row st).A = fun p q =>
      if p = col ∧ q = col then
        (makeGivens (st.A col col) (st.B row col)).1 * st.A col col
          - (makeGivens (st.A col col) (st.B row col)).2 * st.B row col
      else if p = col ∧ col < q then
        (makeGivens (st.A col col) (st.B row col)).1 * st.A col q
          - (makeGivens (st.A col col) (st.B row col)).2 * st.B row q
      else st.A p q := rfl

theorem processRow_a {n : ℕ} (col row : Fin n) (st : ElimState n) :
    (processRow col row st).a = fun p =>
      if p = col then
        (makeGivens (st.A col col) (st.B row col)).1 * st.a col
          - (makeGivens (st.A col col) (st.B row col)).2 * st.b row
      else st.a p := rfl

/-- Closed form of the scalar `solve_ls`: the eliminated factor is
`√(j² + dv²)` and the solution is `-(j·rv)/(j² + dv²)` when that factor is at
least machine precision, `0` otherwise. -/
theorem solveLs1_eq (j dv rv rt : ℝ) (h : ¬(j = 0 ∧ dv = 0)) :
    solveLs1 j dv rv rt
      = (if dummyPrecision ≤ Real.sqrt (j ^ 2 + dv ^ 2)
          then -(j * rv / (j ^ 2 + dv ^ 2)) else 0,
         Real.sqrt (j ^ 2 + dv ^ 2)) := by
  have hsum : (0 : ℝ) < j ^ 2 + dv ^ 2 := by
    rcases not_and_or.mp h with hj | hd
    · nlinarith [sq_pos_of_ne_zero hj, sq_nonneg dv]
    · nlinarith [sq_pos_of_ne_zero hd, sq_nonneg j]
  have hs : 0 < Real.sqrt (j ^ 2 + dv ^ 2) := Real.sqrt_pos.mpr hsum
  have hs2 : Real.sqrt (j ^ 2 + dv ^ 2) ^ 2 = j ^ 2 + dv ^ 2 :=
    Real.sq_sqrt hsum.le
  set h2 := Real.sqrt (j ^ 2 + dv ^ 2) with hh2
  have hmul : h2 * h2 = j ^ 2 + dv ^ 2 := by
    rw [← hs2]
    ring
  set st0 : ElimState 1 :=
    { A := fun _ _ => j
      B := Matrix.diagonal (fun _ => dv)
      a := fun i => ∑ k, (1 : Matrix (Fin 1) (Fin 1) ℝ) k i * rv
      b := 0 } with hst0
  have hB00 : st0.B 0 0 = dv := by
    show Matrix.diagonal (fun _ => dv) 0 0 = dv
    simp
  have ha00 : st0.a 0 = rv := by
    show (∑ k : Fin 1, (1 : Matrix (Fin 1) (Fin 1) ℝ) k 0 * rv) = rv
    simp
  have hmk : makeGivens (st0.A 0 0) (st0.B 0 0)
      = (j / h2, -dv / h2) := by
    rw [hB00]
    exact makeGivens_eq j dv h
  have hmk2 : makeGivens j dv = (j / h2, -dv / h2) := makeGivens_eq j dv h
  have hA' : (processRow (0 : Fin 1) 0 st0).A 0 0 = h2 := by
    simp only [processRow_A, Matrix.diagonal_apply_eq, hmk2, if_true]
    show j / h2 * j - -dv / h2 * dv = h2
    have he : j / h2 * j - -dv / h2 * dv = (j ^ 2 + dv ^ 2) / h2 := by
      field_simp
      ring
    rw [he, ← hmul]
    exact mul_div_cancel_right₀ h2 (ne_of_gt hs)
  have ha' : (processRow (0 : Fin 1) 0 st0).a 0 = j / h2 * rv := by
    simp only [processRow_a, Matrix.diagonal_apply_eq, hmk2, if_true]
    show j / h2 * (∑ k : Fin 1, (1 : Matrix (Fin 1) (Fin 1) ℝ) k 0 * rv)
        - -dv / h2 * (0 : Fin 1 → ℝ) 0 = j / h2 * rv
    rw [Fin.sum_univ_one, Matrix.one_apply_eq, one_mul, Pi.zero_apply,
      mul_zero, sub_zero]
  set stF := processRow (0 : Fin 1) 0 st0 with hstF
  have hrank : rankFrom stF.A 0
      = if dummyPrecision ≤ h2 then 1 else 0 := by
    rw [rankFrom, dif_pos (by norm_num : (0 : ℕ) < 1)]
    have h00 : stF.A ⟨0, by norm_num⟩ ⟨0, by norm_num⟩ = h2 := hA'
    rw [h00]
    by_cases hle : dummyPrecision ≤ h2
    · rw [if_pos hle, if_pos hle, rankFrom, dif_neg (by norm_num)]
    · rw [if_neg hle, if_neg hle]
  have hbs : bsEntry stF.A stF.a (rankFrom stF.A 0) 0
      = if dummyPrecision ≤ h2 then j * rv / (j ^ 2 + dv ^ 2) else 0 := by
    rw [hrank]
    by_cases hle : dummyPrecision ≤ h2
    · rw [if_pos hle, if_pos hle]
      rw [bsEntry, dif_pos (by norm_num : (0 : ℕ) < 1 ∧ (0 : ℕ) < 1)]
      have hsz : (∑ k : Fin 1,
          if hj : (0 : ℕ) < (k : ℕ) ∧ (k : ℕ) < 1 then
            stF.A ⟨0, by norm_num⟩ k * bsEntry stF.A stF.a 1 (k : ℕ)
          else 0) = 0 := by
        rw [Fin.sum_univ_one]
        rw [dif_neg (by norm_num)]
      rw [hsz]
      have h00 : stF.A ⟨0, by norm_num⟩ ⟨0, by norm_num⟩ = h2 := hA'
      have h0a : stF.a ⟨0, by norm_num⟩ = j / h2 * rv := ha'
      rw [h00, h0a, sub_zero]
      have he : j / h2 * rv / h2 = j * rv / (h2 * h2) := by
        ring
      rw [he, hmul]
    · rw [if_neg hle, if_neg hle]
      exact bsEntry_zero _ _ _ _ (Or.inl (Nat.zero_le 0))
  unfold solveLs1 solveLs
  refine Prod.ext ?_ ?_
  · show -(solveLsTri (givensStage st0).A (givensStage st0).a
        ((1 : Equiv.Perm (Fin 1)).symm 0)) = _
    rw [givensStage_one st0]
    show -(bsEntry stF.A stF.a (rankFrom stF.A 0) 0) = _
    rw [hbs]
    by_cases hle : dummyPrecision ≤ h2
    · rw [if_pos hle, if_pos hle]
    · rw [if_neg hle, if_neg hle, neg_zero]
  · show (if (0 : Fin 1) ≤ 0 then (givensStage st0).A 0 0 else rt) = h2
    rw [if_pos (le_refl (0 : Fin 1)), givensStage_one st0]
    exact hA'

/-! ### The `lmpar` loop, scalar embedding

The loop state carries the damping parameter `alpha`, the safeguard bracket
`[l, u]`, the current solution `z_iter`, the current triangular factor
`Rt_iter`, the break flag and the iteration count. -/

structure LmState where
  alpha : ℝ
  l : ℝ
  u : ℝ
  z : ℝ
  Rt : ℝ
  done : Bool
  iters : ℕ

/-- Undamped solution `z_iter = J_qr.solve(-r)`. -/
noncomputable def lmparZ0 (j r : ℝ) : ℝ := qrSolve1 j (-r)

/-- `phi(0) = ‖d.cwiseProduct(z_iter)‖ - Delta` before the loop. -/
noncomputable def lmparPhi0 (j d r Δ : ℝ) : ℝ := |d * lmparZ0 j r| - Δ

/-- State before the loop: `alpha = 0`; the lower bound uses the exact
derivative `dphi(0)` when the QR factorization has full rank; the upper bound
is `‖(J·diag(d)⁻¹)ᵀ·r‖ / Delta`. -/
noncomputable def lmparInit (j d r Δ : ℝ) : LmState :=
  { alpha := 0
    l := if qrRank1 j = 1 then
        max 0 (-(lmparPhi0 j d r Δ) /
          (-|d * lmparZ0 j r| *
            ((d * (d * lmparZ0 j r) / |d * lmparZ0 j r|) / j) ^ 2))
      else 0
    u := |j * (1 / d) * r| / Δ
    z := lmparZ0 j r
    Rt := j
    done := false
    iters := 0 }

/-- The bound clamp at the top of the loop body: keep `alpha` if
`l < alpha < u`, else reset it to `max(0.001·u, √(l·u))`. -/
noncomputable def lmparClamp (s : LmState) : ℝ :=
  if s.l < s.alpha ∧ s.alpha < s.u then s.alpha
  else max (0.001 * s.u) (Real.sqrt (s.l * s.u))

/-- Rest of the loop body after the damped solve, given the clamped `alpha`
and the pair `(z_iter, Rt_iter)` returned by `solve_ls`: break when
`|phi| ≤ 0.1·Delta`, otherwise update the bracket and take the Newton step
on `1/phi`. -/
noncomputable def lmparBody (d Δ α l u : ℝ) (zr : ℝ × ℝ) (it : ℕ) : LmState :=
  if |(|d * zr.1| - Δ)| ≤ 0.1 * Δ then
    { alpha := α, l := l, u := u, z := zr.1, Rt := zr.2, done := true,
      iters := it + 1 }
  else
    { alpha := α - (((|d * zr.1| - Δ) + Δ) / Δ) *
        ((|d * zr.1| - Δ) /
          (-|d * zr.1| * ((d * (d * zr.1) / |d * zr.1|) / zr.2) ^ 2))
      l := max l (α - (|d * zr.1| - Δ) /
          (-|d * zr.1| * ((d * (d * zr.1) / |d * zr.1|) / zr.2) ^ 2))
      u := if |d * zr.1| - Δ < 0 then α else u
      z := zr.1
      Rt := zr.2
      done := false
      iters := it + 1 }

/-- One iteration of the safeguarded loop; a state that has already broken is
left unchanged. -/
noncomputable def lmparStep (j d r Δ : ℝ) (s : LmState) : LmState :=
  if s.done then s else
  lmparBody d Δ (lmparClamp s) s.l s.u
    (solveLs1 j (Real.sqrt (lmparClamp s) * d) r s.Rt) s.iters

/-- The whole of `lmpar`: early return when `phi(0) ≤ 0.1·Delta`, otherwise
the loop runs for (at most) its 20 iterations. -/
noncomputable def lmparFinal (j d r Δ : ℝ) : LmState :=
  if lmparPhi0 j d r Δ ≤ 0.1 * Δ then
    { alpha := 0, l := 0, u := 0, z := lmparZ0 j r, Rt := j, done := true,
      iters := 0 }
  else (lmparStep j d r Δ)^[20] (lmparInit j d r Δ)

/-- The values `lmpar` hands back: the damping scalar and the solution `x`. -/
noncomputable def lmpar1 (j d r Δ : ℝ) : ℝ × ℝ :=
  ((lmparFinal j d r Δ).alpha, (lmparFinal j d r Δ).z)

/-! Closed forms for the scalar quantities inside the loop. -/

/-- The damped normal-equation factor `w(α) = j² + α·d²`. -/
noncomputable def wFun (j d α : ℝ) : ℝ := j ^ 2 + α * d ^ 2

theorem wFun_pos (j d α : ℝ) (hj : j ≠ 0) (hα : 0 ≤ α) : 0 < wFun j d α := by
  have h1 : 0 < j ^ 2 := by positivity
  have h2 : 0 ≤ α * d ^ 2 := by positivity
  unfold wFun
  linarith

theorem solveLs1_w (j d r rt α : ℝ) (hα : 0 ≤ α)
    (hj : dummyPrecision ≤ |j|) :
    solveLs1 j (Real.sqrt α * d) r rt
      = (-(j * r / wFun j d α), Real.sqrt (wFun j d α)) := by
  have hj0 : j ≠ 0 := by
    intro h
    rw [h, abs_zero] at hj
    norm_num [dummyPrecision] at hj
  have hdv : (Real.sqrt α * d) ^ 2 = α * d ^ 2 := by
    rw [mul_pow, Real.sq_sqrt hα]
  have hle : dummyPrecision ≤ Real.sqrt (j ^ 2 + (Real.sqrt α * d) ^ 2) := by
    calc dummyPrecision ≤ |j| := hj
    _ = Real.sqrt (j ^ 2) := (Real.sqrt_sq_eq_abs j).symm
    _ ≤ Real.sqrt (j ^ 2 + (Real.sqrt α * d) ^ 2) := by
        apply Real.sqrt_le_sqrt
        nlinarith [sq_nonneg (Real.sqrt α * d)]
  rw [solveLs1_eq j (Real.sqrt α * d) r rt (by
    intro h
    exact hj0 h.1)]
  rw [if_pos hle, hdv]
  rfl

theorem qn_val (d j r w : ℝ) (hw : 0 < w) :
    |d * -(j * r / w)| = |d * j * r| / w := by
  have h : d * -(j * r / w) = -(d * j * r / w) := by ring
  rw [h, abs_neg, abs_div, abs_of_pos hw]

theorem lmparStep_done (j d r Δ : ℝ) (s : LmState) (h : s.done = true) :
    lmparStep j d r Δ s = s := by
  unfold lmparStep
  rw [if_pos h]

theorem lmparStep_iterate_done (j d r Δ : ℝ) (s : LmState)
    (h : s.done = true) (k : ℕ) : (lmparStep j d r Δ)^[k] s = s :=
  Function.iterate_fixed (lmparStep_done j d r Δ s h) k

theorem lmparZ0_val (j d r : ℝ) (hj : j ≠ 0) :
    lmparZ0 j r = -(j * r / wFun j d 0) := by
  unfold lmparZ0 qrSolve1 wFun
  rw [if_neg hj]
  field_simp
  ring

/-- Target damping value: the root of `phi`, `α* = (c - Δ·j²)/(Δ·d²)` where
`c = |d·j·r|`. -/
noncomputable def alphaStar (j d r Δ : ℝ) : ℝ :=
  (|d * j * r| - Δ * j ^ 2) / (Δ * d ^ 2)

theorem wFun_alphaStar (j d r Δ : ℝ) (hd : d ≠ 0) (hΔ : Δ ≠ 0) :
    wFun j d (alphaStar j d r Δ) = |d * j * r| / Δ := by
  unfold wFun alphaStar
  field_simp
  ring

theorem dphi_val (d j r w : ℝ) (hw : 0 < w) (hc : d * j * r ≠ 0) :
    -|d * -(j * r / w)| *
        ((d * (d * -(j * r / w)) / |d * -(j * r / w)|) / Real.sqrt w) ^ 2
      = -(|d * j * r| * d ^ 2 / w ^ 2) := by
  have hcpos : 0 < |d * j * r| := abs_pos.mpr hc
  have hc2 : |d * j * r| ^ 2 = (d * j * r) ^ 2 := sq_abs _
  rw [qn_val d j r w hw]
  rw [div_pow, Real.sq_sqrt hw.le]
  have e1 : d * (d * -(j * r / w)) / (|d * j * r| / w)
      = -(d ^ 2 * j * r) / |d * j * r| := by
    rw [div_div_eq_mul_div]
    field_simp
    ring
  rw [e1]
  have e2 : (-(d ^ 2 * j * r) / |d * j * r|) ^ 2 = d ^ 2 := by
    rw [div_pow, neg_pow, show (-1 : ℝ) ^ 2 * (d ^ 2 * j * r) ^ 2
        = d ^ 2 * (d * j * r) ^ 2 from by ring, ← hc2]
    rw [mul_div_assoc, div_self (pow_ne_zero 2 (ne_of_gt hcpos)), mul_one]
  rw [e2]
  rw [neg_mul, div_mul_div_comm, ← pow_two]

theorem newton_exact (j d r Δ α : ℝ) (hΔ : Δ ≠ 0) (hd : d ≠ 0)
    (hw : wFun j d α ≠ 0) (hc : |d * j * r| ≠ 0) :
    α - (((|d * j * r| / wFun j d α - Δ) + Δ) / Δ) *
        ((|d * j * r| / wFun j d α - Δ) /
          (-(|d * j * r| * d ^ 2 / wFun j d α ^ 2)))
      = alphaStar j d r Δ := by
  unfold wFun alphaStar at *
  field_simp
  ring

theorem tangent_bound (j d r Δ α : ℝ) (hΔ : 0 < Δ) (hd : d ≠ 0)
    (hw : 0 < wFun j d α) (hc : 0 < |d * j * r|)
    (hphi : |d * j * r| / wFun j d α - Δ ≠ 0) :
    α - (|d * j * r| / wFun j d α - Δ) /
        (-(|d * j * r| * d ^ 2 / wFun j d α ^ 2))
      < alphaStar j d r Δ := by
  have hwne : wFun j d α ≠ 0 := ne_of_gt hw
  have hne : |d * j * r| - Δ * wFun j d α ≠ 0 := by
    intro h0
    apply hphi
    have h1 : |d * j * r| = Δ * wFun j d α := by linarith
    rw [h1, mul_div_assoc, div_self hwne, mul_one, sub_self]
  have hkey : alphaStar j d r Δ -
      (α - (|d * j * r| / wFun j d α - Δ) /
        (-(|d * j * r| * d ^ 2 / wFun j d α ^ 2)))
      = (|d * j * r| - Δ * wFun j d α) ^ 2
          / (|d * j * r| * Δ * d ^ 2) := by
    unfold wFun alphaStar at *
    field_simp
    ring
  have hpos : 0 < (|d * j * r| - Δ * wFun j d α) ^ 2
      / (|d * j * r| * Δ * d ^ 2) := by
    apply div_pos
    · exact sq_pos_of_ne_zero hne
    · exact mul_pos (mul_pos hc hΔ) (by positivity : (0 : ℝ) < d ^ 2)
  linarith [hkey, hpos]

theorem phi_neg_gt (j d r Δ α : ℝ) (hΔ : 0 < Δ) (hd : d ≠ 0)
    (hw : 0 < wFun j d α)
    (hphi : |d * j * r| / wFun j d α - Δ < 0) :
    alphaStar j d r Δ < α := by
  have h1 : |d * j * r| < Δ * wFun j d α := by
    have := (div_lt_iff hw).mp (by linarith : |d * j * r| / wFun j d α < Δ)
    linarith [this]
  unfold alphaStar wFun at *
  rw [div_lt_iff (by positivity : 0 < Δ * d ^ 2)]
  nlinarith [h1]

theorem phi_pos_lt (j d r Δ α : ℝ) (hΔ : 0 < Δ) (hd : d ≠ 0)
    (hw : 0 < wFun j d α)
    (hphi : 0 < |d * j * r| / wFun j d α - Δ) :
    α < alphaStar j d r Δ := by
  have h1 : Δ * wFun j d α < |d * j * r| := by
    have := (lt_div_iff hw).mp (by linarith : Δ < |d * j * r| / wFun j d α)
    linarith [this]
  unfold alphaStar wFun at *
  rw [lt_div_iff (by positivity : 0 < Δ * d ^ 2)]
  nlinarith [h1]

theorem lmparBody_break (d Δ α l u : ℝ) (zr : ℝ × ℝ) (it : ℕ)
    (h : |(|d * zr.1| - Δ)| ≤ 0.1 * Δ) :
    lmparBody d Δ α l u zr it
      = { alpha := α, l := l, u := u, z := zr.1, Rt := zr.2, done := true,
          iters := it + 1 } := by
  unfold lmparBody
  rw [if_pos h]

theorem lmparBody_go (d Δ α l u : ℝ) (zr : ℝ × ℝ) (it : ℕ)
    (h : ¬ |(|d * zr.1| - Δ)| ≤ 0.1 * Δ) :
    lmparBody d Δ α l u zr it
      = { alpha := α - (((|d * zr.1| - Δ) + Δ) / Δ) *
            ((|d * zr.1| - Δ) /
              (-|d * zr.1| * ((d * (d * zr.1) / |d * zr.1|) / zr.2) ^ 2))
          l := max l (α - (|d * zr.1| - Δ) /
              (-|d * zr.1| * ((d * (d * zr.1) / |d * zr.1|) / zr.2) ^ 2))
          u := if |d * zr.1| - Δ < 0 then α else u
          z := zr.1
          Rt := zr.2
          done := false
          iters := it + 1 } := by
  unfold lmparBody
  rw [if_neg h]

theorem lmparStep_eval (j d r Δ : ℝ) (s : LmState) (hdone : s.done = false)
    (hjp : dummyPrecision ≤ |j|) (hα : 0 ≤ lmparClamp s) :
    lmparStep j d r Δ s
      = lmparBody d Δ (lmparClamp s) s.l s.u
          (-(j * r / wFun j d (lmparClamp s)),
            Real.sqrt (wFun j d (lmparClamp s))) s.iters := by
  unfold lmparStep
  rw [if_neg (show ¬s.done = true by rw [hdone]; exact Bool.false_ne_true),
    solveLs1_w j d r s.Rt (lmparClamp s) hα hjp]

theorem lmpar_loop_break (j d r Δ : ℝ) (hΔ : 0 < Δ)
    (hjp : dummyPrecision ≤ |j|)
    (hphi : 0.1 * Δ < lmparPhi0 j d r Δ) :
    (lmparFinal j d r Δ).done = true ∧
    0 < (lmparFinal j d r Δ).alpha ∧
    0.9 * Δ ≤ |d * (lmparFinal j d r Δ).z| ∧
    |d * (lmparFinal j d r Δ).z| ≤ 1.1 * Δ ∧
    1 ≤ (lmparFinal j d r Δ).iters := by
  have hprec : (0 : ℝ) < dummyPrecision := by norm_num [dummyPrecision]
  have hj : j ≠ 0 := by
    intro h
    rw [h, abs_zero] at hjp
    linarith
  have hw0 : 0 < wFun j d 0 := wFun_pos j d 0 hj le_rfl
  have hw0j : wFun j d 0 = j ^ 2 := by unfold wFun; ring
  have hz0 : lmparZ0 j r = -(j * r / wFun j d 0) := lmparZ0_val j d r hj
  have hqn0 : |d * lmparZ0 j r| = |d * j * r| / wFun j d 0 := by
    rw [hz0]
    exact qn_val d j r _ hw0
  have hphi0 : 0.1 * Δ < |d * j * r| / wFun j d 0 - Δ := by
    unfold lmparPhi0 at hphi
    rw [hqn0] at hphi
    exact hphi
  have hcw0 : 1.1 * Δ * wFun j d 0 < |d * j * r| := by
    have h1 : 1.1 * Δ < |d * j * r| / wFun j d 0 := by linarith
    exact (lt_div_iff hw0).mp h1
  have hc_pos : 0 < |d * j * r| := by
    nlinarith [mul_pos (by linarith : (0 : ℝ) < 1.1 * Δ) hw0]
  have hdjr : d * j * r ≠ 0 := abs_pos.mp hc_pos
  have hd : d ≠ 0 := fun h => hdjr (by rw [h]; ring)
  have hj2 : (0 : ℝ) < j ^ 2 := by positivity
  have hαs : 0 < alphaStar j d r Δ := by
    unfold alphaStar
    apply div_pos
    · rw [hw0j] at hcw0
      nlinarith
    · positivity
  have hwαs : wFun j d (alphaStar j d r Δ) = |d * j * r| / Δ :=
    wFun_alphaStar j d r Δ hd (ne_of_gt hΔ)
  have hu0 : |j * (1 / d) * r| / Δ = |d * j * r| / (Δ * d ^ 2) := by
    have h1 : j * (1 / d) * r = d * j * r / d ^ 2 := by
      field_simp
      ring
    rw [h1, abs_div, abs_of_pos (by positivity : (0 : ℝ) < d ^ 2), div_div,
      mul_comm (d ^ 2) Δ]
  have hαsu : alphaStar j d r Δ < |d * j * r| / (Δ * d ^ 2) := by
    unfold alphaStar
    rw [div_lt_div_iff (by positivity) (by positivity)]
    nlinarith [mul_pos (mul_pos hΔ hj2)
      (mul_pos hΔ (by positivity : (0 : ℝ) < d ^ 2))]
  have hrank : qrRank1 j = 1 := by
    unfold qrRank1
    rw [if_neg hj]
  have hs0l : (lmparInit j d r Δ).l
      = max 0 (-(lmparPhi0 j d r Δ) /
          (-|d * lmparZ0 j r| *
            ((d * (d * lmparZ0 j r) / |d * lmparZ0 j r|) / j) ^ 2)) := by
    simp only [lmparInit]
    rw [if_pos hrank]
  have hdphi0 : -|d * lmparZ0 j r| *
      ((d * (d * lmparZ0 j r) / |d * lmparZ0 j r|) / j) ^ 2
      = -(|d * j * r| * d ^ 2 / wFun j d 0 ^ 2) := by
    rw [hz0]
    have hsq : (d * (d * -(j * r / wFun j d 0)) / |d * -(j * r / wFun j d 0)| / j) ^ 2
        = (d * (d * -(j * r / wFun j d 0)) / |d * -(j * r / wFun j d 0)|
            / Real.sqrt (wFun j d 0)) ^ 2 := by
      rw [hw0j, Real.sqrt_sq_eq_abs, div_pow _ j 2, div_pow _ |j| 2, sq_abs]
    rw [hsq]
    exact dphi_val d j r (wFun j d 0) hw0 hdjr
  have hl0_lt : (lmparInit j d r Δ).l < alphaStar j d r Δ := by
    rw [hs0l]
    apply max_lt hαs
    have ht := tangent_bound j d r Δ 0 hΔ hd hw0 hc_pos
      (ne_of_gt (by linarith : (0 : ℝ) < |d * j * r| / wFun j d 0 - Δ))
    rw [hdphi0]
    unfold lmparPhi0
    rw [hqn0, neg_div]
    linarith [ht]
  have hs0u : (lmparInit j d r Δ).u = |j * (1 / d) * r| / Δ := rfl
  have hu0_pos : 0 < (lmparInit j d r Δ).u := by
    rw [hs0u, hu0]
    positivity
  have hl0_nonneg : 0 ≤ (lmparInit j d r Δ).l := by
    rw [hs0l]
    exact le_max_left 0 _
  have hs0done : (lmparInit j d r Δ).done = false := rfl
  have hclamp0 : lmparClamp (lmparInit j d r Δ)
      = max (0.001 * (lmparInit j d r Δ).u)
          (Real.sqrt ((lmparInit j d r Δ).l * (lmparInit j d r Δ).u)) := by
    unfold lmparClamp
    rw [if_neg]
    intro hcon
    exact absurd hcon.1 (not_lt.mpr hl0_nonneg)
  have ha1_pos : 0 < lmparClamp (lmparInit j d r Δ) := by
    rw [hclamp0]
    exact lt_of_lt_of_le
      (mul_pos (by norm_num : (0 : ℝ) < 0.001) hu0_pos) (le_max_left _ _)
  have hw1 : 0 < wFun j d (lmparClamp (lmparInit j d r Δ)) :=
    wFun_pos j d _ hj ha1_pos.le
  have hstep1 : lmparStep j d r Δ (lmparInit j d r Δ)
      = lmparBody d Δ (lmparClamp (lmparInit j d r Δ))
          (lmparInit j d r Δ).l (lmparInit j d r Δ).u
          (-(j * r / wFun j d (lmparClamp (lmparInit j d r Δ))),
            Real.sqrt (wFun j d (lmparClamp (lmparInit j d r Δ))))
          (lmparInit j d r Δ).iters :=
    lmparStep_eval j d r Δ _ hs0done hjp ha1_pos.le
  have hqn1 : |d * -(j * r / wFun j d (lmparClamp (lmparInit j d r Δ)))|
      = |d * j * r| / wFun j d (lmparClamp (lmparInit j d r Δ)) :=
    qn_val d j r _ hw1
  have hFdef : lmparFinal j d r Δ
      = (lmparStep j d r Δ)^[20] (lmparInit j d r Δ) := by
    unfold lmparFinal
    rw [if_neg (not_le.mpr hphi)]
  by_cases hbr : |(|d * j * r| / wFun j d (lmparClamp (lmparInit j d r Δ)) - Δ)|
      ≤ 0.1 * Δ
  · -- break at the first iteration
    have hs1 := lmparBody_break d Δ (lmparClamp (lmparInit j d r Δ))
        (lmparInit j d r Δ).l (lmparInit j d r Δ).u
        (-(j * r / wFun j d (lmparClamp (lmparInit j d r Δ))),
          Real.sqrt (wFun j d (lmparClamp (lmparInit j d r Δ))))
        (lmparInit j d r Δ).iters
        (by
          show |(|d * -(j * r / wFun j d (lmparClamp (lmparInit j d r Δ)))| - Δ)|
              ≤ 0.1 * Δ
          rw [hqn1]
          exact hbr)
    have hF : lmparFinal j d r Δ
        = { alpha := lmparClamp (lmparInit j d r Δ),
            l := (lmparInit j d r Δ).l, u := (lmparInit j d r Δ).u,
            z := -(j * r / wFun j d (lmparClamp (lmparInit j d r Δ))),
            Rt := Real.sqrt (wFun j d (lmparClamp (lmparInit j d r Δ))),
            done := true, iters := (lmparInit j d r Δ).iters + 1 } := by
      rw [hFdef, show (20 : ℕ) = 19 + 1 from rfl, Function.iterate_succ_apply,
        hstep1, hs1]
      exact lmparStep_iterate_done j d r Δ _ rfl 19
    have habs := abs_le.mp hbr
    rw [hF]
    refine ⟨rfl, ha1_pos, ?_, ?_, Nat.le_add_left 1 _⟩
    · show 0.9 * Δ ≤ |d * -(j * r / wFun j d (lmparClamp (lmparInit j d r Δ)))|
      rw [hqn1]
      linarith [habs.1]
    · show |d * -(j * r / wFun j d (lmparClamp (lmparInit j d r Δ)))| ≤ 1.1 * Δ
      rw [hqn1]
      linarith [habs.2]
  · -- no break at the first iteration: the Newton step lands exactly on α*
    have hphi1_ne : |d * j * r| / wFun j d (lmparClamp (lmparInit j d r Δ)) - Δ ≠ 0 := by
      intro h0
      apply hbr
      rw [h0, abs_zero]
      positivity
    have hdphi1 : -|d * -(j * r / wFun j d (lmparClamp (lmparInit j d r Δ)))| *
        ((d * (d * -(j * r / wFun j d (lmparClamp (lmparInit j d r Δ)))) /
            |d * -(j * r / wFun j d (lmparClamp (lmparInit j d r Δ)))|) /
          Real.sqrt (wFun j d (lmparClamp (lmparInit j d r Δ)))) ^ 2
        = -(|d * j * r| * d ^ 2 / wFun j d (lmparClamp (lmparInit j d r Δ)) ^ 2) :=
      dphi_val d j r _ hw1 hdjr
    have hs1 := lmparBody_go d Δ (lmparClamp (lmparInit j d r Δ))
        (lmparInit j d r Δ).l (lmparInit j d r Δ).u
        (-(j * r / wFun j d (lmparClamp (lmparInit j d r Δ))),
          Real.sqrt (wFun j d (lmparClamp (lmparInit j d r Δ))))
        (lmparInit j d r Δ).iters
        (by
          show ¬|(|d * -(j * r / wFun j d (lmparClamp (lmparInit j d r Δ)))| - Δ)|
              ≤ 0.1 * Δ
          rw [hqn1]
          exact hbr)
    have h1 : (lmparStep j d r Δ (lmparInit j d r Δ)).alpha = alphaStar j d r Δ := by
      rw [hstep1, hs1]
      show lmparClamp (lmparInit j d r Δ) -
          (((|d * -(j * r / wFun j d (lmparClamp (lmparInit j d r Δ)))| - Δ) + Δ) / Δ) *
            ((|d * -(j * r / wFun j d (lmparClamp (lmparInit j d r Δ)))| - Δ) /
              (-|d * -(j * r / wFun j d (lmparClamp (lmparInit j d r Δ)))| *
                ((d * (d * -(j * r / wFun j d (lmparClamp (lmparInit j d r Δ)))) /
                    |d * -(j * r / wFun j d (lmparClamp (lmparInit j d r Δ)))|) /
                  Real.sqrt (wFun j d (lmparClamp (lmparInit j d r Δ)))) ^ 2))
          = alphaStar j d r Δ
      rw [hdphi1, hqn1]
      exact newton_exact j d r Δ _ (ne_of_gt hΔ) hd (ne_of_gt hw1)
        (ne_of_gt hc_pos)
    have h2 : (lmparStep j d r Δ (lmparInit j d r Δ)).l
        = max (lmparInit j d r Δ).l
            (lmparClamp (lmparInit j d r Δ) -
              (|d * j * r| / wFun j d (lmparClamp (lmparInit j d r Δ)) - Δ) /
                (-(|d * j * r| * d ^ 2 /
                  wFun j d (lmparClamp (lmparInit j d r Δ)) ^ 2))) := by
      rw [hstep1, hs1]
      show max (lmparInit j d r Δ).l
          (lmparClamp (lmparInit j d r Δ) -
            (|d * -(j * r / wFun j d (lmparClamp (lmparInit j d r Δ)))| - Δ) /
              (-|d * -(j * r / wFun j d (lmparClamp (lmparInit j d r Δ)))| *
                ((d * (d * -(j * r / wFun j d (lmparClamp (lmparInit j d r Δ)))) /
                    |d * -(j * r / wFun j d (lmparClamp (lmparInit j d r Δ)))|) /
                  Real.sqrt (wFun j d (lmparClamp (lmparInit j d r Δ)))) ^ 2))
          = _
      rw [hdphi1, hqn1]
    have h3 : (lmparStep j d r Δ (lmparInit j d r Δ)).u
        = if |d * j * r| / wFun j d (lmparClamp (lmparInit j d r Δ)) - Δ < 0
            then lmparClamp (lmparInit j d r Δ) else (lmparInit j d r Δ).u := by
      rw [hstep1, hs1]
      show (if |d * -(j * r / wFun j d (lmparClamp (lmparInit j d r Δ)))| - Δ < 0
          then lmparClamp (lmparInit j d r Δ) else (lmparInit j d r Δ).u) = _
      rw [hqn1]
    have h4 : (lmparStep j d r Δ (lmparInit j d r Δ)).done = false := by
      rw [hstep1, hs1]
    have h5 : (lmparStep j d r Δ (lmparInit j d r Δ)).iters
        = (lmparInit j d r Δ).iters + 1 := by
      rw [hstep1, hs1]
    have hl1_lt : (lmparStep j d r Δ (lmparInit j d r Δ)).l < alphaStar j d r Δ := by
      rw [h2]
      exact max_lt hl0_lt
        (tangent_bound j d r Δ _ hΔ hd hw1 hc_pos hphi1_ne)
    have hu1_gt : alphaStar j d r Δ < (lmparStep j d r Δ (lmparInit j d r Δ)).u := by
      rw [h3]
      by_cases hsgn : |d * j * r| / wFun j d (lmparClamp (lmparInit j d r Δ)) - Δ < 0
      · rw [if_pos hsgn]
        exact phi_neg_gt j d r Δ _ hΔ hd hw1 hsgn
      · rw [if_neg hsgn, hs0u, hu0]
        exact hαsu
    have hclamp1 : lmparClamp (lmparStep j d r Δ (lmparInit j d r Δ))
        = alphaStar j d r Δ := by
      unfold lmparClamp
      rw [if_pos ⟨by rw [h1]; exact hl1_lt, by rw [h1]; exact hu1_gt⟩]
      exact h1
    have hstep2 := lmparStep_eval j d r Δ
      (lmparStep j d r Δ (lmparInit j d r Δ)) h4 hjp
      (by rw [hclamp1]; exact hαs.le)
    rw [hclamp1] at hstep2
    have hqn2 : |d * -(j * r / wFun j d (alphaStar j d r Δ))| = Δ := by
      rw [qn_val d j r _ (wFun_pos j d _ hj hαs.le), hwαs,
        div_div_eq_mul_div, mul_comm (|d * j * r|) Δ, mul_div_assoc,
        div_self (ne_of_gt hc_pos), mul_one]
    have hs2 := lmparBody_break d Δ (alphaStar j d r Δ)
        (lmparStep j d r Δ (lmparInit j d r Δ)).l
        (lmparStep j d r Δ (lmparInit j d r Δ)).u
        (-(j * r / wFun j d (alphaStar j d r Δ)),
          Real.sqrt (wFun j d (alphaStar j d r Δ)))
        (lmparStep j d r Δ (lmparInit j d r Δ)).iters
        (by
          show |(|d * -(j * r / wFun j d (alphaStar j d r Δ))| - Δ)| ≤ 0.1 * Δ
          rw [hqn2, sub_self, abs_zero]
          positivity)
    have hF : lmparFinal j d r Δ
        = { alpha := alphaStar j d r Δ,
            l := (lmparStep j d r Δ (lmparInit j d r Δ)).l,
            u := (lmparStep j d r Δ (lmparInit j d r Δ)).u,
            z := -(j * r / wFun j d (alphaStar j d r Δ)),
            Rt := Real.sqrt (wFun j d (alphaStar j d r Δ)),
            done := true,
            iters := (lmparStep j d r Δ (lmparInit j d r Δ)).iters + 1 } := by
      rw [hFdef, show (20 : ℕ) = 18 + 1 + 1 from rfl,
        Function.iterate_succ_apply, Function.iterate_succ_apply,
        hstep2, hs2]
      exact lmparStep_iterate_done j d r Δ _ rfl 18
    rw [hF]
    refine ⟨rfl, hαs, ?_, ?_, Nat.le_add_left 1 _⟩
    · show 0.9 * Δ ≤ |d * -(j * r / wFun j d (alphaStar j d r Δ))|
      rw [hqn2]
      linarith
    · show |d * -(j * r / wFun j d (alphaStar j d r Δ))| ≤ 1.1 * Δ
      rw [hqn2]
      linarith

/-- C9: `lmpar` returns `λ = 0` having executed no loop iteration exactly when
the undamped QR solution `x0 = J_qr.solve(-r)` satisfies
`‖diag(d)·x0‖ - Δ ≤ 0.1·Δ`, and in that case the output `x` is that undamped
solution (scalar instance, `Δ > 0`, `|J|` at least machine precision). -/
theorem lmpar_zero_iff (j d r Δ : ℝ) (hΔ : 0 < Δ)
    (hjp : dummyPrecision ≤ |j|) :
    (((lmpar1 j d r Δ).1 = 0 ∧ (lmparFinal j d r Δ).iters = 0)
        ↔ lmparPhi0 j d r Δ ≤ 0.1 * Δ)
    ∧ (lmparPhi0 j d r Δ ≤ 0.1 * Δ →
        (lmpar1 j d r Δ).2 = lmparZ0 j r) := by
  by_cases h : lmparPhi0 j d r Δ ≤ 0.1 * Δ
  · have hF : lmparFinal j d r Δ
        = { alpha := 0, l := 0, u := 0, z := lmparZ0 j r, Rt := j,
            done := true, iters := 0 } := by
      unfold lmparFinal
      rw [if_pos h]
    refine ⟨⟨fun _ => h, fun _ => ⟨?_, ?_⟩⟩, fun _ => ?_⟩
    · show (lmparFinal j d r Δ).alpha = 0
      rw [hF]
    · rw [hF]
    · show (lmparFinal j d r Δ).z = lmparZ0 j r
      rw [hF]
  · have hloop := lmpar_loop_break j d r Δ hΔ hjp (not_le.mp h)
    refine ⟨⟨fun hzero => absurd ?_ (ne_of_gt hloop.2.1), fun hle => absurd hle h⟩,
      fun hle => absurd hle h⟩
    exact hzero.1

/-- Witness for C9 at `J = [1]`, `d = 1`, `r = -1`, `Δ = 1`. -/
theorem lmpar_zero_iff_witness :
    (0 : ℝ) < 1 ∧ dummyPrecision ≤ |(1 : ℝ)| ∧
    ((((lmpar1 1 1 (-1) 1).1 = 0 ∧ (lmparFinal 1 1 (-1) 1).iters = 0)
        ↔ lmparPhi0 1 1 (-1) 1 ≤ 0.1 * 1)
      ∧ (lmparPhi0 1 1 (-1) 1 ≤ 0.1 * 1 →
          (lmpar1 1 1 (-1) 1).2 = lmparZ0 1 (-1))) :=
  ⟨by norm_num, by norm_num [dummyPrecision],
    lmpar_zero_iff 1 1 (-1) 1 (by norm_num) (by norm_num [dummyPrecision])⟩

/-- C1 counterexample: at `J = [1]`, `d = 1`, `r = -1`, `Δ = 1` the undamped
solution has scaled norm exactly `Δ`, so `lmpar` returns `λ = 0` with
`‖diag(d)·x‖ = Δ`, which is neither below `0.1·Δ` nor paired with `λ > 0`:
the claimed dichotomy fails. -/
theorem lmpar_claim_counterexample :
    ¬(((lmpar1 1 1 (-1) 1).1 = 0 ∧ |1 * (lmpar1 1 1 (-1) 1).2| < 0.1 * 1)
      ∨ (0 < (lmpar1 1 1 (-1) 1).1 ∧ 0.9 * 1 ≤ |1 * (lmpar1 1 1 (-1) 1).2|
          ∧ |1 * (lmpar1 1 1 (-1) 1).2| ≤ 1.1 * 1)) := by
  have hz : lmparZ0 1 (-1) = 1 := by
    unfold lmparZ0 qrSolve1
    norm_num
  have hphi : lmparPhi0 1 1 (-1) 1 ≤ 0.1 * 1 := by
    unfold lmparPhi0
    rw [hz]
    norm_num
  have hF : lmparFinal 1 1 (-1) 1
      = { alpha := 0, l := 0, u := 0, z := lmparZ0 1 (-1), Rt := 1,
          done := true, iters := 0 } := by
    unfold lmparFinal
    rw [if_pos hphi]
  have h1 : (lmpar1 1 1 (-1) 1).1 = 0 := by
    show (lmparFinal 1 1 (-1) 1).alpha = 0
    rw [hF]
  have h2 : (lmpar1 1 1 (-1) 1).2 = 1 := by
    show (lmparFinal 1 1 (-1) 1).z = 1
    rw [hF]
    exact hz
  rintro (⟨_, hlt⟩ | ⟨hpos, _, _⟩)
  · rw [h2] at hlt
    norm_num at hlt
  · rw [h1] at hpos
    exact lt_irrefl 0 hpos

/-- C1 (amended): for `Δ > 0` and `|J|` at least machine precision, `lmpar`
returns either `λ = 0` with `‖diag(d)·x‖ ≤ 1.1·Δ` (not `≤ 0.1·Δ` as claimed:
the interior early-return triggers whenever `φ(0) ≤ 0.1·Δ`, i.e. whenever the
scaled norm is within `1.1·Δ`), or `λ > 0` with
`0.9·Δ ≤ ‖diag(d)·x‖ ≤ 1.1·Δ` (scalar instance). -/
theorem lmpar_scaled_norm (j d r Δ : ℝ) (hΔ : 0 < Δ)
    (hjp : dummyPrecision ≤ |j|) :
    ((lmpar1 j d r Δ).1 = 0 ∧ |d * (lmpar1 j d r Δ).2| ≤ 1.1 * Δ)
    ∨ (0 < (lmpar1 j d r Δ).1 ∧ 0.9 * Δ ≤ |d * (lmpar1 j d r Δ).2|
        ∧ |d * (lmpar1 j d r Δ).2| ≤ 1.1 * Δ) := by
  by_cases h : lmparPhi0 j d r Δ ≤ 0.1 * Δ
  · left
    have hF : lmparFinal j d r Δ
        = { alpha := 0, l := 0, u := 0, z := lmparZ0 j r, Rt := j,
            done := true, iters := 0 } := by
      unfold lmparFinal
      rw [if_pos h]
    constructor
    · show (lmparFinal j d r Δ).alpha = 0
      rw [hF]
    · show |d * (lmparFinal j d r Δ).z| ≤ 1.1 * Δ
      rw [hF]
      show |d * lmparZ0 j r| ≤ 1.1 * Δ
      unfold lmparPhi0 at h
      linarith
  · right
    have hloop := lmpar_loop_break j d r Δ hΔ hjp (not_le.mp h)
    exact ⟨hloop.2.1, hloop.2.2.1, hloop.2.2.2.1⟩

/-- Witness for the amended C1 at `J = [1]`, `d = 1`, `r = -1`, `Δ = 1`. -/
theorem lmpar_scaled_norm_witness :
    (0 : ℝ) < 1 ∧ dummyPrecision ≤ |(1 : ℝ)| ∧
    (((lmpar1 1 1 (-1) 1).1 = 0 ∧ |1 * (lmpar1 1 1 (-1) 1).2| ≤ 1.1 * 1)
      ∨ (0 < (lmpar1 1 1 (-1) 1).1 ∧ 0.9 * 1 ≤ |1 * (lmpar1 1 1 (-1) 1).2|
          ∧ |1 * (lmpar1 1 1 (-1) 1).2| ≤ 1.1 * 1)) :=
  ⟨by norm_num, by norm_num [dummyPrecision],
    lmpar_scaled_norm 1 1 (-1) 1 (by norm_num) (by norm_num [dummyPrecision])⟩

/-! ### The `optimize` driver (`optim/lm.hpp`), scalar instance

`optimize` runs a fixed `for (int i = 0; i != 10; ++i)` loop with no break,
no convergence test and no returned status; each pass solves the damped
least-squares problem with `lambda = 1/Delta`, applies the step with `g += a`,
and updates the trust region and the scaling vector. -/

structure OptState where
  g : ℝ
  Delta : ℝ
  diag : ℝ
  iters : ℕ

/-- One pass of the `optimize` loop body (scalar: `num_res = lie_dof = 1`,
`stableNorm = |·|`, flat `g += a`). -/
noncomputable def optStep (f df : ℝ → ℝ) (s : OptState) : OptState :=
  let J := df s.g
  let r := f s.g
  let lam := 1 / s.Delta
  let a := (solveLs1 J (Real.sqrt lam * s.diag) r 0).1
  let g2 := s.g + a
  let rpre := |r|
  let J2 := df g2
  let r2 := f g2
  let up := 1 - (|r2| / rpre) ^ 2
  let dn1 := (|J * a| / rpre) ^ 2
  let dn2 := 2 * (Real.sqrt lam * |s.diag * a| / rpre) ^ 2
  let rho := up / (dn1 + dn2)
  { g := g2
    Delta := if rho < 0.25 then s.Delta / 2
      else if (rho ≤ 0.75 ∧ lam = 0) ∨ 0.75 ≤ lam then 2 * |s.diag * a|
      else s.Delta
    diag := max s.diag |J2|
    iters := s.iters + 1 }

/-- The whole driver from a start point `g0` (`G::Random()` in the source):
`Delta = 1`, `diag = ‖J‖`, then ten passes. -/
noncomputable def optimizeRun (f df : ℝ → ℝ) (g0 : ℝ) : OptState :=
  (optStep f df)^[10] { g := g0, Delta := 1, diag := |df g0|, iters := 0 }

theorem optStep_iters (f df : ℝ → ℝ) (s : OptState) :
    (optStep f df s).iters = s.iters + 1 := rfl

theorem optStep_iterate_iters (f df : ℝ → ℝ) (k : ℕ) (s : OptState) :
    ((optStep f df)^[k] s).iters = s.iters + k := by
  induction k with
  | zero => rfl
  | succ n ih =>
      rw [Function.iterate_succ_apply', optStep_iters, ih]
      omega

theorem lmparStep_iters_le (j d r Δ : ℝ) (s : LmState) :
    (lmparStep j d r Δ s).iters ≤ s.iters + 1 := by
  unfold lmparStep
  by_cases h : s.done = true
  · rw [if_pos h]
    exact Nat.le_succ _
  · rw [if_neg h]
    unfold lmparBody
    by_cases h2 : |(|d * (solveLs1 j (Real.sqrt (lmparClamp s) * d) r s.Rt).1| - Δ)|
        ≤ 0.1 * Δ
    · rw [if_pos h2]
    · rw [if_neg h2]

theorem lmparStep_iterate_le (j d r Δ : ℝ) (k : ℕ) (s : LmState) :
    ((lmparStep j d r Δ)^[k] s).iters ≤ s.iters + k := by
  induction k with
  | zero => exact Nat.le_add_right _ _
  | succ n ih =>
      rw [Function.iterate_succ_apply']
      calc (lmparStep j d r Δ ((lmparStep j d r Δ)^[n] s)).iters
          ≤ ((lmparStep j d r Δ)^[n] s).iters + 1 :=
            lmparStep_iters_le j d r Δ _
        _ ≤ s.iters + n + 1 := Nat.add_le_add_right ih 1
        _ = s.iters + (n + 1) := by omega

theorem lmparFinal_iters (j d r Δ : ℝ) : (lmparFinal j d r Δ).iters ≤ 20 := by
  unfold lmparFinal
  by_cases h : lmparPhi0 j d r Δ ≤ 0.1 * Δ
  · rw [if_pos h]
    exact Nat.zero_le 20
  · rw [if_neg h]
    simpa using lmparStep_iterate_le j d r Δ 20 (lmparInit j d r Δ)

/-- C7: the `lmpar` loop performs at most its 20 iterations and the `optimize`
driver performs exactly 10 outer iterations, for every input; `lmpar` hands
back the last computed `(λ, x)` with no success/failure indication. -/
theorem iteration_caps :
    (∀ j d r Δ : ℝ, (lmparFinal j d r Δ).iters ≤ 20) ∧
    (∀ (f df : ℝ → ℝ) (g0 : ℝ), (optimizeRun f df g0).iters = 10) ∧
    (∀ j d r Δ : ℝ, lmpar1 j d r Δ
        = ((lmparFinal j d r Δ).alpha, (lmparFinal j d r Δ).z)) := by
  refine ⟨lmparFinal_iters, fun f df g0 => ?_, fun j d r Δ => rfl⟩
  unfold optimizeRun
  rw [optStep_iterate_iters]

/-! ### `reparameterize_spline` (`spline/reparameterize.hpp`), scalar `Dof = 1`

The reverse pass computes squared-velocity ceilings `v2max(i)` from the end
backwards; the forward pass greedily integrates with maximal feasible
acceleration starting from `min(start_vel², v2max(0))`.  `none` stands for
`+∞` in ceilings (and for the fold over an empty active index set, `±∞`, in
the acceleration computations); the scalar grid data are the body velocity
`vel i` and acceleration `acc i` at grid point `i`. -/

noncomputable def repEps : ℝ := 1e-8

/-- `min` against a possibly-infinite (`none = +∞`) current value. -/
noncomputable def minO (o : Option ℝ) (x : ℝ) : Option ℝ :=
  match o with
  | none => some x
  | some v => some (min v x)

/-- The clamp loop body at grid point `i`: bound the squared-velocity ceiling
by the velocity constraints and by feasibility of zero acceleration. -/
noncomputable def clampV (vm vM am aM vel acc : ℝ) (raw : Option ℝ) :
    Option ℝ :=
  let s1 := if repEps < vel then minO raw ((vM / vel) ^ 2)
    else if vel < -repEps then minO raw ((vm / vel) ^ 2)
    else raw
  if repEps < acc then minO s1 (aM / acc)
  else if acc < -repEps then minO s1 (am / acc)
  else s1

/-- Minimal allowed acceleration at a reverse-pass step (`none = -∞` when the
single velocity component lies in the `±eps` dead band). -/
noncomputable def backA (am aM vel acc y : ℝ) : Option ℝ :=
  if repEps < vel then some (min (am - acc * y) 0 / vel)
  else if vel < -repEps then some (max (aM - acc * y) 0 / vel)
  else none

/-- Reverse pass, indexed by distance `k` from the end: `k = 0` is grid point
`N` (ceiling `end_vel²` clamped), `k + 1` propagates the ceiling backwards
with the minimal acceleration and clamps. -/
noncomputable def v2maxRev (vm vM am aM ds ev : ℝ) (vel acc : ℕ → ℝ)
    (N : ℕ) : ℕ → Option ℝ
  | 0 => clampV vm vM am aM (vel N) (acc N) (some (ev ^ 2))
  | k + 1 =>
      let i := N - (k + 1)
      let raw := match v2maxRev vm vM am aM ds ev vel acc N k with
        | none => none
        | some yv =>
            match backA am aM (vel i) (acc i) yv with
            | none => none
            | some a => some (yv - 2 * ds * a)
      clampV vm vM am aM (vel i) (acc i) raw

/-- The squared-velocity ceiling at grid point `i`. -/
noncomputable def v2maxAt (vm vM am aM ds ev : ℝ) (vel acc : ℕ → ℝ)
    (N i : ℕ) : Option ℝ :=
  v2maxRev vm vM am aM ds ev vel acc N (N - i)

/-- Maximal allowed acceleration at a forward-pass step before the next-step
ceiling is imposed (`none = +∞` in the dead band). -/
noncomputable def fwdA (am aM vel acc vi2 : ℝ) : Option ℝ :=
  if repEps < vel then some (max (aM - acc * vi2) 0 / vel)
  else if vel < -repEps then some (min (am - acc * vi2) 0 / vel)
  else none

/-- The forward-pass acceleration `ai`, including the
`(v2max(i+1) - vi²) / (2·ds)` ceiling. -/
noncomputable def fwdAi (am aM ds vel acc vi2 : ℝ) (ynext : Option ℝ) :
    Option ℝ :=
  match ynext with
  | none => fwdA am aM vel acc vi2
  | some yv => minO (fwdA am aM vel acc vi2) ((yv - vi2) / (2 * ds))

/-- Forward pass: the squared velocity `v2m` at grid point `i`; starts at
`min(start_vel², v2max(0))`, and each step with finite `ai` updates to
`max(eps, vi² + 2·ai·ds)` (the `eps` floor); an infinite `ai` leaves `v2m`
unchanged (no segment is emitted). -/
noncomputable def fwdV2 (vm vM am aM ds sv ev : ℝ) (vel acc : ℕ → ℝ)
    (N : ℕ) : ℕ → ℝ
  | 0 => match v2maxAt vm vM am aM ds ev vel acc N 0 with
      | none => sv ^ 2
      | some y0 => min (sv ^ 2) y0
  | i + 1 =>
      let vi2 := fwdV2 vm vM am aM ds sv ev vel acc N i
      match fwdAi am aM ds (vel i) (acc i) vi2
          (v2maxAt vm vM am aM ds ev vel acc N (i + 1)) with
      | none => vi2
      | some ai => max repEps (vi2 + 2 * ai * ds)

theorem minO_some (w x : ℝ) : minO (some w) x = some (min w x) := rfl

/-! Evaluation of the passes on the concrete counterexample data:
unit-speed spline (`vel ≡ 1`, `acc ≡ 0`) on one grid interval (`N = 1`,
`ds = 1`), symmetric unit bounds, `start_vel = 1`, `end_vel = 0`. -/

theorem v2maxRev_ce0 :
    v2maxRev (-1) 1 (-1) 1 1 0 (fun _ => (1 : ℝ)) (fun _ => (0 : ℝ)) 1 0
      = some 0 := by
  unfold v2maxRev clampV minO
  norm_num [repEps]

theorem v2maxAt_ce1 :
    v2maxAt (-1) 1 (-1) 1 1 0 (fun _ => (1 : ℝ)) (fun _ => (0 : ℝ)) 1 1
      = some 0 := by
  unfold v2maxAt
  rw [show (1 : ℕ) - 1 = 0 from rfl]
  exact v2maxRev_ce0

theorem v2maxAt_ce0 :
    v2maxAt (-1) 1 (-1) 1 1 0 (fun _ => (1 : ℝ)) (fun _ => (0 : ℝ)) 1 0
      = some 1 := by
  unfold v2maxAt
  rw [show (1 : ℕ) - 0 = 0 + 1 from rfl]
  unfold v2maxRev
  rw [v2maxRev_ce0]
  unfold clampV backA minO
  norm_num [repEps]

theorem fwdV2_ce0 :
    fwdV2 (-1) 1 (-1) 1 1 1 0 (fun _ => (1 : ℝ)) (fun _ => (0 : ℝ)) 1 0
      = 1 := by
  unfold fwdV2
  rw [v2maxAt_ce0]
  norm_num

theorem fwdV2_ce1 :
    fwdV2 (-1) 1 (-1) 1 1 1 0 (fun _ => (1 : ℝ)) (fun _ => (0 : ℝ)) 1 1
      = repEps := by
  rw [show (1 : ℕ) = 0 + 1 from rfl]
  unfold fwdV2
  rw [show (0 : ℕ) + 1 = 1 from rfl, v2maxAt_ce1]
  rw [show fwdV2 (-1) 1 (-1) 1 1 1 0 (fun _ => (1 : ℝ)) (fun _ => (0 : ℝ)) 1 0
      = 1 from fwdV2_ce0]
  unfold fwdAi fwdA minO
  norm_num [repEps]

/-- C8 counterexample: for the unit-speed spline on one grid interval with
symmetric unit bounds (all preconditions hold), requested `start_vel = 1` and
`end_vel = 0`, the forward pass's `eps = 1e-8` floor leaves a terminal
squared velocity of `1e-8`, so the attained end velocity is
`1e-4 > 0 = end_vel`: the attained boundary velocity EXCEEDS the requested
one, refuting the claim. -/
theorem reparam_end_vel_counterexample :
    ((-1 : ℝ) < 0 ∧ (0 : ℝ) < 1) ∧ ((-1 : ℝ) < 0 ∧ (0 : ℝ) < 1) ∧
    (0 : ℝ) ≤ 1 ∧ (0 : ℝ) ≤ 0 ∧
    ¬(Real.sqrt
        (fwdV2 (-1) 1 (-1) 1 1 1 0 (fun _ => (1 : ℝ)) (fun _ => (0 : ℝ)) 1 1)
      ≤ 0) := by
  refine ⟨⟨by norm_num, by norm_num⟩, ⟨by norm_num, by norm_num⟩,
    by norm_num, le_refl 0, ?_⟩
  rw [fwdV2_ce1, show repEps = ((1 : ℝ) / 10000) ^ 2 by norm_num [repEps],
    Real.sqrt_sq (by norm_num : (0 : ℝ) ≤ (1 : ℝ) / 10000)]
  norm_num

theorem clampV_some_le (vm vM am aM vel acc v y : ℝ)
    (h : clampV vm vM am aM vel acc (some v) = some y) : y ≤ v := by
  simp only [clampV, minO] at h
  split_ifs at h <;> simp only [Option.some.injEq] at h <;> subst h
  all_goals
    first
    | exact le_rfl
    | exact min_le_left _ _
    | exact le_trans (min_le_left _ _) (min_le_left _ _)

theorem fwdAi_le (am aM ds vel acc vi2 yv : ℝ) :
    ∃ av, fwdAi am aM ds vel acc vi2 (some yv) = some av
      ∧ av ≤ (yv - vi2) / (2 * ds) := by
  unfold fwdAi
  cases hA : fwdA am aM vel acc vi2 with
  | none => exact ⟨(yv - vi2) / (2 * ds), rfl, le_rfl⟩
  | some x => exact ⟨min x ((yv - vi2) / (2 * ds)), rfl, min_le_right _ _⟩

theorem v2maxAt_top (vm vM am aM ds ev : ℝ) (vel acc : ℕ → ℝ) (N : ℕ) :
    v2maxAt vm vM am aM ds ev vel acc N N
      = clampV vm vM am aM (vel N) (acc N) (some (ev ^ 2)) := by
  unfold v2maxAt
  rw [Nat.sub_self]
  rfl

theorem fwdV2_zero (vm vM am aM ds sv ev : ℝ) (vel acc : ℕ → ℝ) (N : ℕ) :
    fwdV2 vm vM am aM ds sv ev vel acc N 0
      = match v2maxAt vm vM am aM ds ev vel acc N 0 with
        | none => sv ^ 2
        | some y0 => min (sv ^ 2) y0 := rfl

theorem fwdV2_succ (vm vM am aM ds sv ev : ℝ) (vel acc : ℕ → ℝ) (N i : ℕ) :
    fwdV2 vm vM am aM ds sv ev vel acc N (i + 1)
      = match fwdAi am aM ds (vel i) (acc i)
            (fwdV2 vm vM am aM ds sv ev vel acc N i)
            (v2maxAt vm vM am aM ds ev vel acc N (i + 1)) with
        | none => fwdV2 vm vM am aM ds sv ev vel acc N i
        | some ai => max repEps
            (fwdV2 vm vM am aM ds sv ev vel acc N i + 2 * ai * ds) := rfl

/-- C8 (amended): the forward pass starts from `min(start_vel², v2max(0))`,
so the attained START velocity never exceeds the requested one; the attained
END velocity is bounded by `max(√eps, end_vel)` — the `eps = 1e-8` floor in
the forward update can push it strictly ABOVE the requested `end_vel` (see
the counterexample), but never above `max(1e-4, end_vel)`. Stated for
`Dof = 1` grids whose squared-velocity ceilings are finite. -/
theorem reparam_boundary_vel (vm vM am aM ds sv ev : ℝ) (vel acc : ℕ → ℝ)
    (N : ℕ) (hds : 0 < ds) (hsv : 0 ≤ sv) (hev : 0 ≤ ev)
    (hfin : ∀ i, i ≤ N →
      (v2maxAt vm vM am aM ds ev vel acc N i).isSome = true) :
    Real.sqrt (fwdV2 vm vM am aM ds sv ev vel acc N 0) ≤ sv ∧
    Real.sqrt (fwdV2 vm vM am aM ds sv ev vel acc N N)
      ≤ max (Real.sqrt repEps) ev := by
  constructor
  · have h0 : fwdV2 vm vM am aM ds sv ev vel acc N 0 ≤ sv ^ 2 := by
      unfold fwdV2
      cases hy : v2maxAt vm vM am aM ds ev vel acc N 0 with
      | none => exact le_rfl
      | some y0 => exact min_le_left _ _
    calc Real.sqrt (fwdV2 vm vM am aM ds sv ev vel acc N 0)
        ≤ Real.sqrt (sv ^ 2) := Real.sqrt_le_sqrt h0
      _ = sv := by rw [Real.sqrt_sq hsv]
  · obtain ⟨yN, hyN⟩ := Option.isSome_iff_exists.mp (hfin N le_rfl)
    have hyN_le : yN ≤ ev ^ 2 := by
      apply clampV_some_le vm vM am aM (vel N) (acc N) (ev ^ 2) yN
      rw [← v2maxAt_top]
      exact hyN
    have hNbound : fwdV2 vm vM am aM ds sv ev vel acc N N
        ≤ max repEps (ev ^ 2) := by
      cases N with
      | zero =>
          have h0 : fwdV2 vm vM am aM ds sv ev vel acc 0 0 ≤ yN := by
            rw [fwdV2_zero]
            simp only [hyN]
            exact min_le_right _ _
          exact le_trans (le_trans h0 hyN_le) (le_max_right _ _)
      | succ m =>
          obtain ⟨av, hav, havle⟩ :=
            fwdAi_le am aM ds (vel m) (acc m)
              (fwdV2 vm vM am aM ds sv ev vel acc (m + 1) m) yN
          have hstep : fwdV2 vm vM am aM ds sv ev vel acc (m + 1) (m + 1)
              = max repEps
                  (fwdV2 vm vM am aM ds sv ev vel acc (m + 1) m
                    + 2 * av * ds) := by
            rw [fwdV2_succ]
            simp only [hyN, hav]
          have hmul : av * (2 * ds)
              ≤ yN - fwdV2 vm vM am aM ds sv ev vel acc (m + 1) m :=
            (le_div_iff (by positivity)).mp havle
          have hsum : fwdV2 vm vM am aM ds sv ev vel acc (m + 1) m
              + 2 * av * ds ≤ yN := by nlinarith [hmul]
          rw [hstep]
          exact max_le_max le_rfl (le_trans hsum hyN_le)
    have hmax : Real.sqrt (max repEps (ev ^ 2))
        ≤ max (Real.sqrt repEps) ev := by
      rcases le_total repEps (ev ^ 2) with h | h
      · rw [max_eq_right h, Real.sqrt_sq hev]
        exact le_max_right _ _
      · rw [max_eq_left h]
        exact le_max_left _ _
    exact le_trans (Real.sqrt_le_sqrt hNbound) hmax

/-- Witness for the amended C8 at the counterexample data. -/
theorem reparam_boundary_vel_witness :
    (0 : ℝ) < 1 ∧ (0 : ℝ) ≤ 1 ∧ (0 : ℝ) ≤ 0 ∧
    (∀ i, i ≤ 1 →
      (v2maxAt (-1) 1 (-1) 1 1 0 (fun _ => (1 : ℝ)) (fun _ => (0 : ℝ)) 1
        i).isSome = true) ∧
    (Real.sqrt
        (fwdV2 (-1) 1 (-1) 1 1 1 0 (fun _ => (1 : ℝ)) (fun _ => (0 : ℝ)) 1 0)
      ≤ 1 ∧
     Real.sqrt
        (fwdV2 (-1) 1 (-1) 1 1 1 0 (fun _ => (1 : ℝ)) (fun _ => (0 : ℝ)) 1 1)
      ≤ max (Real.sqrt repEps) 0) :=
  ⟨by norm_num, by norm_num, le_refl 0,
    fun i hi => by
      interval_cases i
      · rw [v2maxAt_ce0]
        rfl
      · rw [v2maxAt_ce1]
        rfl,
    reparam_boundary_vel (-1) 1 (-1) 1 1 1 0 (fun _ => (1 : ℝ))
      (fun _ => (0 : ℝ)) 1 (by norm_num) (by norm_num) (le_refl 0)
      (fun i hi => by
        interval_cases i
        · rw [v2maxAt_ce0]
          rfl
        · rw [v2maxAt_ce1]
          rfl)⟩

end Smooth
